import Mathlib

/-!
Verification development for vicissicalc (src/vicissicalc.c), a terminal
spreadsheet with a 20 x 4 cell grid.  The cell evaluation engine — lexer,
precedence-climbing parser/evaluator, cell store with on-demand recompute
and cycle detection, and the error-propagation policy — is embedded
shallowly below, function by function from the C source.

Modelling conventions:
* C `double` is modelled as the exact rationals `ℚ`.  All control flow
  (which branch runs, which error is latched) is faithful; IEEE rounding,
  infinities and NaN are outside the model.  `pow` is modelled exactly on
  integer exponents and by the total default 0 elsewhere (`powQ`).
* C strings are `List Char`; the NUL-terminated representation is dropped.
* The cell array `cells[nrows][ncols]` is a total function
  `Nat → Nat → Cell`; the C code range-checks every access, so entries
  outside the grid are never read or written by the modelled operations.
* Cell recomputation is mutually recursive through `@` references; the C
  recursion is modelled with an explicit fuel argument, `none` meaning the
  fuel ran out (the termination theorem shows enough fuel always exists).
* The interned error strings (`plaint`) that the C code compares by
  pointer identity are modelled by the sum type `Plaint`; `NULL` becomes
  `none`.  All the interned strings have distinct contents, so structural
  equality of `Plaint` coincides with the C pointer tests.
-/

set_option maxRecDepth 8192

namespace Vicissicalc

/-- C `double` values, modelled as exact rationals (see the header comment). -/
abbrev Value := ℚ

/-- The interned plaint strings of vicissicalc.c, as a sum type.  `stale`,
`cycle` and `noFormula` are the three statics the code compares by pointer;
`upstream` is the interned empty string `""` that `refer` substitutes for an
other-cell error; the rest are the fixed error message literals. -/
inductive Plaint where
  | stale
  | cycle
  | noFormula
  | badToken
  | expectedFactor
  | expectedRparen
  | trailingToken
  | divByZero
  | nonIntegerCoord
  | outOfRange
  | upstream
  deriving DecidableEq

/-- The user-visible text of each plaint, exactly the C string literals
(`upstream` is the empty string, so a referring cell shows no message). -/
def plaintMessage : Plaint → String
  | Plaint.stale => "Stale"
  | Plaint.cycle => "Cycle"
  | Plaint.noFormula => "No value for referred cell"
  | Plaint.badToken => "Syntax error: unknown token type"
  | Plaint.expectedFactor => "Syntax error: expected a factor"
  | Plaint.expectedRparen => "Syntax error: expected ')'"
  | Plaint.trailingToken => "Syntax error: unexpected token"
  | Plaint.divByZero => "Divide by 0"
  | Plaint.nonIntegerCoord => "Non-integer cell coordinate"
  | Plaint.outOfRange => "Cell out of range"
  | Plaint.upstream => ""

/-- The blank characters of `skip_blanks` in the C code: `" \t\r\n\f\v"`.
This is also exactly the `isspace` set that `sscanf` whitespace skips. -/
def isBlankChar (ch : Char) : Bool :=
  ch == ' ' || ch == '\t' || ch == '\r' || ch == '\n' || ch == '\x0c' || ch == '\x0b'

/-- `skip_blanks` from the C source. -/
def skip_blanks (s : List Char) : List Char :=
  s.dropWhile isBlankChar

/-- Decimal digit value of a digit list, most significant first
(the value `strtod`/`sscanf %u` read from a digit run). -/
def digitsVal (ds : List Char) : Nat :=
  ds.foldl (fun a ch => 10 * a + (ch.toNat - 48)) 0

/-- The digit run of an exponent: at least one digit or the whole
exponent is not consumed (`strtod` backtracks to the longest valid
prefix). -/
def expDigits (sign : Int) (u : List Char) : Option (Int × List Char) :=
  if u.takeWhile Char.isDigit = [] then none
  else some (sign * (digitsVal (u.takeWhile Char.isDigit) : Int), u.dropWhile Char.isDigit)

/-- After the `e`/`E`: an optional sign, then the digit run. -/
def expTail (t : List Char) : Option (Int × List Char) :=
  match t with
  | [] => expDigits 1 []
  | ch :: u =>
    if ch = '+' then expDigits 1 u
    else if ch = '-' then expDigits (-1) u
    else expDigits 1 (ch :: u)

/-- The optional exponent part of a `strtod` number: consumed only when
`e`/`E` with an optional sign is followed by at least one digit. -/
def expPart (s : List Char) : Option (Int × List Char) :=
  match s with
  | [] => none
  | e :: t => if e == 'e' || e == 'E' then expTail t else none

/-- The optional fraction after the integer digits: a `.` and its digit
run (possibly empty — `strtod` accepts `"1."`), or nothing. -/
def fracPart (r1 : List Char) : List Char × List Char :=
  match r1 with
  | '.' :: t => (t.takeWhile Char.isDigit, t.dropWhile Char.isDigit)
  | _ => ([], r1)

/-- Model of C `strtod` as `lex` uses it: called only when the first
character is a decimal digit; parses `digits [. digits] [exponent]`
greedily and returns the value with the unconsumed rest.  The hexadecimal
`0x` form of `strtod` is not modelled (no claim reaches it). -/
def strtodM (s : List Char) : Value × List Char :=
  let ds := s.takeWhile Char.isDigit
  let r1 := s.dropWhile Char.isDigit
  let fs := (fracPart r1).1
  let r2 := (fracPart r1).2
  let mant : Value := (digitsVal ds : ℚ) + (digitsVal fs : ℚ) / ((10 : ℚ) ^ fs.length)
  match expPart r2 with
  | some (ex, r3) => (mant * (10 : ℚ) ^ ex, r3)
  | none => (mant, r2)

/-- The kind of lexical token last scanned: C uses the int 0 for end of
input, the char `'0'` for a number, and the operator character itself
otherwise. -/
inductive Token where
  | endTok
  | num
  | op (ch : Char)
  deriving DecidableEq

/-- The `Evaluator` struct of the C source: the cell being evaluated, the
current token (with its value), the rest of the input, and the latched
first error (`none` = the C `NULL`). -/
structure Evaluator where
  row : Nat
  col : Nat
  token : Token
  token_value : Value
  s : List Char
  plaint : Option Plaint
  deriving DecidableEq

/-- `fail` from the C source: on the first failure latch the plaint and
skip to the end of the expression; later failures are no-ops. -/
def fail (e : Evaluator) (p : Plaint) : Evaluator :=
  if e.plaint = none then { e with plaint := some p, s := [] } else e

/-- The operator characters of the lexer's `strchr("+-*/%^@cr()", ...)`. -/
def opChars : List Char := ['+', '-', '*', '/', '%', '^', '@', 'c', 'r', '(', ')']

/-- `lex` from the C source: skip blanks, then scan end-of-input, a number,
an operator/identifier character, or latch a bad-token error. -/
def lex (e : Evaluator) : Evaluator :=
  let s := skip_blanks e.s
  match s with
  | [] => { e with s := [], token := Token.endTok }
  | ch :: rest =>
    if ch.isDigit then
      { e with token := Token.num, token_value := (strtodM (ch :: rest)).1,
               s := (strtodM (ch :: rest)).2 }
    else if ch ∈ opChars then
      { e with token := Token.op ch, s := rest }
    else
      let e1 := fail { e with s := ch :: rest } Plaint.badToken
      { e1 with token := Token.endTok }

/-- One spreadsheet cell: raw text, plaint status (`none` = valid value),
cached value (meaningful only when `plaint = none`). -/
structure Cell where
  text : List Char
  plaint : Option Plaint
  value : Value
  deriving DecidableEq

def nrows : Nat := 20
def ncols : Nat := 4

/-- The cell array, as a total function (see the header comment). -/
abbrev Sheet := Nat → Nat → Cell

/-- Writing one cell of the array. -/
def updateSheet (sh : Sheet) (r c : Nat) (cell : Cell) : Sheet :=
  fun i j => if i = r ∧ j = c then cell else sh i j

/-- `text_updated` from the C source: mark every cell of the grid stale. -/
def text_updated (sh : Sheet) : Sheet :=
  fun i j => if i < nrows ∧ j < ncols then { sh i j with plaint := some Plaint.stale } else sh i j

/-- The grid after `set_up`: every cell has empty text, is stale, and has
the zero-initialised value of the static array. -/
def initSheet : Sheet :=
  fun _ _ => { text := [], plaint := some Plaint.stale, value := 0 }

/-- `set_text_only` from the C source: replace one cell's text and nothing
else.  (The C pointer-equality short-circuit `cells[r][c].text == text`
skips an equal-pointer copy and is observationally the identity here; the
`assert(row < nrows && col < ncols)` becomes a hypothesis of the
theorems.) -/
def set_text_only (sh : Sheet) (row col : Nat) (text : List Char) : Sheet :=
  updateSheet sh row col { sh row col with text := text }

/-- `set_text` from the C source: `set_text_only` then `text_updated`. -/
def set_text (sh : Sheet) (row col : Nat) (text : List Char) : Sheet :=
  text_updated (set_text_only sh row col text)

/-- `find_formula` from the C source: the text after the `=` that follows
the leading blanks, or `none` when the first non-blank is not `=`. -/
def find_formula (s : List Char) : Option (List Char) :=
  match skip_blanks s with
  | '=' :: t => some t
  | _ => none

/-- Truncation toward zero: the C cast `(int)v` applied to a double.
`Int.tdiv` is C integer division (toward zero), and `q.den > 0`. -/
def ratTrunc (q : ℚ) : Int :=
  q.num.tdiv (q.den : Int)

/-- IEEE `fmod` restricted to the exact rationals: the remainder
`x - trunc(x/y) * y` with truncation toward zero (used only with `y ≠ 0`). -/
def fmodQ (x y : ℚ) : ℚ :=
  x - (ratTrunc (x / y) : ℚ) * y

/-- Model of C `pow` on doubles: exact integer exponents give exact
exponentiation (negative exponents via the field inverse); for a
non-integer exponent the model returns the default 0 — the C result there
(an irrational real, or NaN for a negative base) is outside `ℚ`, and no
claim depends on that value, only on `pow` never raising an error. -/
def powQ (x y : ℚ) : ℚ :=
  if y.den = 1 then x ^ y.num else 0

/-- `zero_divide` from the C source: latch "Divide by 0" and return 0. -/
def zero_divide (e : Evaluator) : Value × Evaluator :=
  (0, fail e Plaint.divByZero)

/-- The operator table of `parse_expr`: left and right precedence. -/
def opPrec : Char → Option (Nat × Nat)
  | '+' => some (1, 2)
  | '-' => some (1, 2)
  | '*' => some (3, 4)
  | '/' => some (3, 4)
  | '%' => some (3, 4)
  | '^' => some (5, 5)
  | '@' => some (7, 8)
  | _ => none

mutual

/-- `parse_factor` from the C source.  Fuel-indexed (see header); every
recursive call of the engine spends one unit. -/
def parse_factor : Nat → Evaluator → Sheet → Option (Value × Evaluator × Sheet)
  | 0, _, _ => none
  | fuel + 1, e, sh =>
    let v := e.token_value
    match e.token with
    | Token.num => some (v, lex e, sh)
    | Token.op '-' =>
      match parse_factor fuel (lex e) sh with
      | none => none
      | some (v2, e1, sh1) => some (-v2, e1, sh1)
    | Token.op 'c' => some ((e.col : ℚ), lex e, sh)
    | Token.op 'r' => some ((e.row : ℚ), lex e, sh)
    | Token.op '(' =>
      match parse_expr fuel 0 (lex e) sh with
      | none => none
      | some (v2, e1, sh1) =>
        let e2 := if e1.token ≠ Token.op ')' then fail e1 Plaint.expectedRparen else e1
        some (v2, lex e2, sh1)
    | _ => some (0, lex (fail e Plaint.expectedFactor), sh)

/-- `apply` from the C source: apply one infix operator to two values
(the C `switch` as an equality chain).  The unreachable
`default: assert(0)` arm is modelled as the value 0. -/
def apply : Nat → Evaluator → Char → Value → Value → Sheet → Option (Value × Evaluator × Sheet)
  | 0, _, _, _, _, _ => none
  | fuel + 1, e, rator, lhs, rhs, sh =>
    if rator = '+' then some (lhs + rhs, e, sh)
    else if rator = '-' then some (lhs - rhs, e, sh)
    else if rator = '*' then some (lhs * rhs, e, sh)
    else if rator = '/' then
      if rhs = 0 then some ((zero_divide e).1, (zero_divide e).2, sh)
      else some (lhs / rhs, e, sh)
    else if rator = '%' then
      if rhs = 0 then some ((zero_divide e).1, (zero_divide e).2, sh)
      else some (fmodQ lhs rhs, e, sh)
    else if rator = '^' then some (powQ lhs rhs, e, sh)
    else if rator = '@' then refer fuel e lhs rhs sh
    else some (0, e, sh)

/-- `parse_expr` from the C source: a factor, then the operator loop
(`parse_expr_loop` is the C `for (;;)` loop with `lhs` as its state). -/
def parse_expr : Nat → Nat → Evaluator → Sheet → Option (Value × Evaluator × Sheet)
  | 0, _, _, _ => none
  | fuel + 1, precedence, e, sh =>
    match parse_factor fuel e sh with
    | none => none
    | some (lhs, e1, sh1) => parse_expr_loop fuel precedence lhs e1 sh1

/-- The `for (;;)` loop body of `parse_expr`: while the current token is an
operator of left precedence at least `precedence`, consume it, parse the
right operand at its right precedence, and fold with `apply`. -/
def parse_expr_loop : Nat → Nat → Value → Evaluator → Sheet → Option (Value × Evaluator × Sheet)
  | 0, _, _, _, _ => none
  | fuel + 1, precedence, lhs, e, sh =>
    match e.token with
    | Token.op rator =>
      match opPrec rator with
      | some (lp, rp) =>
        if lp < precedence then some (lhs, e, sh)
        else
          match parse_expr fuel rp (lex e) sh with
          | none => none
          | some (rhs, e1, sh1) =>
            match apply fuel e1 rator lhs rhs sh1 with
            | none => none
            | some (v, e2, sh2) => parse_expr_loop fuel precedence v e2 sh2
      | none => some (lhs, e, sh)
    | _ => some (lhs, e, sh)

/-- `refer` from the C source, the `r @ c` operation: non-integer operands
latch "Non-integer cell coordinate"; otherwise fetch through `get_value`,
masking any plaint other than `no_formula` and `cycle` to the interned
empty string (`upstream`) before latching it.  The C out-parameter `value`
is initialised to 0 at this sole evaluator call site, matching
`get_value`'s 0-on-error result below. -/
def refer : Nat → Evaluator → Value → Value → Sheet → Option (Value × Evaluator × Sheet)
  | 0, _, _, _, _ => none
  | fuel + 1, e, r, c, sh =>
    if r ≠ (ratTrunc r : ℚ) ∨ c ≠ (ratTrunc c : ℚ) then
      some (0, fail e Plaint.nonIntegerCoord, sh)
    else
      match get_value fuel (ratTrunc r) (ratTrunc c) sh with
      | none => none
      | some (p, value, sh1) =>
        let p1 : Option Plaint :=
          match p with
          | some q =>
            if q ≠ Plaint.noFormula ∧ q ≠ Plaint.cycle then some Plaint.upstream else some q
          | none => none
        match p1 with
        | some q => some (value, fail e q, sh1)
        | none => some (value, e, sh1)

/-- `evaluate` from the C source: lex the first token, parse at precedence
0, flag a trailing token, and return the value with the latched plaint. -/
def evaluate : Nat → Evaluator → Sheet → Option (Value × Option Plaint × Sheet)
  | 0, _, _ => none
  | fuel + 1, e0, sh =>
    match parse_expr fuel 0 (lex e0) sh with
    | none => none
    | some (v, e1, sh1) =>
      let e2 := if e1.token ≠ Token.endTok then fail e1 Plaint.trailingToken else e1
      some (v, e2.plaint, sh1)

/-- `recalculate` from the C source: provisionally mark the cell with the
`cycle` plaint (the Computing marker), then store the result of evaluating
its formula — `no_formula` when the text has none.  The C `evaluate`
writes `cell->value` through a pointer unconditionally; during evaluation
the cell's plaint is the `cycle` marker, never `NULL`, so its value is not
read before the final write.  (The `oops` status-bar side channel is UI
state outside the engine and is not modelled.) -/
def recalculate : Nat → Nat → Nat → Sheet → Option Sheet
  | 0, _, _, _ => none
  | fuel + 1, r, c, sh =>
    match find_formula (sh r c).text with
    | none => some (updateSheet sh r c { sh r c with plaint := some Plaint.noFormula })
    | some body =>
      let sh1 := updateSheet sh r c { sh r c with plaint := some Plaint.cycle }
      let e0 : Evaluator :=
        { row := r, col := c, token := Token.endTok, token_value := 0, s := body, plaint := none }
      match evaluate fuel e0 sh1 with
      | none => none
      | some (v, p, sh2) =>
        some (updateSheet sh2 r c { sh2 r c with value := v, plaint := p })

/-- `get_value` from the C source.  Out-of-range coordinates (the C
unsigned comparison after the `(int)` cast: negative or too large) return
"Cell out of range" without touching the store.  A stale cell is
recalculated; then the cell's plaint is returned, with its value when the
plaint is `NULL` (the C out-parameter is modelled as 0 otherwise, the
initialisation at the one evaluator call site). -/
def get_value : Nat → Int → Int → Sheet → Option (Option Plaint × Value × Sheet)
  | 0, _, _, _ => none
  | fuel + 1, r, c, sh =>
    if r < 0 ∨ (nrows : Int) ≤ r ∨ c < 0 ∨ (ncols : Int) ≤ c then
      some (some Plaint.outOfRange, 0, sh)
    else
      let rn := r.toNat
      let cn := c.toNat
      match (if (sh rn cn).plaint = some Plaint.stale then recalculate fuel rn cn sh else some sh) with
      | none => none
      | some sh1 =>
        some ((sh1 rn cn).plaint,
              (if (sh1 rn cn).plaint = none then (sh1 rn cn).value else 0), sh1)

end

/-- The plaint component of a `get_value` run (`none` = out of fuel). -/
def gvPlaint (fuel : Nat) (sh : Sheet) (r c : Int) : Option (Option Plaint) :=
  (get_value fuel r c sh).map fun out => out.1

/-- The (plaint, value) pair of a `get_value` run (`none` = out of fuel). -/
def gvResult (fuel : Nat) (sh : Sheet) (r c : Int) : Option (Option Plaint × Value) :=
  (get_value fuel r c sh).map fun out => (out.1, out.2.1)

/-- The parser termination measure: twice the unscanned length, plus one
when a token is still in hand.  `lex` never increases it and strictly
decreases it when the token in hand is not end-of-input. -/
def emeasure (e : Evaluator) : Nat :=
  2 * e.s.length + (if e.token = Token.endTok then 0 else 1)

/-- The set of in-grid cells whose status is the `stale` marker. -/
def staleSet (sh : Sheet) : Finset (Nat × Nat) :=
  (Finset.range nrows ×ˢ Finset.range ncols).filter
    fun p => (sh p.1 p.2).plaint = some Plaint.stale

/-- How many in-grid cells are stale. -/
def staleCount (sh : Sheet) : Nat :=
  (staleSet sh).card

/-- `sh2` has no stale cell that `sh1` does not already have: the engine
only ever moves cells out of `stale`, never into it. -/
def staleLE (sh2 sh1 : Sheet) : Prop :=
  ∀ r c, r < nrows → c < ncols →
    (sh2 r c).plaint = some Plaint.stale → (sh1 r c).plaint = some Plaint.stale

/-- Decimal digits of `n`, most significant first, exactly `printf "%u"`:
structural fuel recursion (fuel `n + 1` always suffices, `n / 10 < n`). -/
def natReprCore : Nat → Nat → List Char → List Char
  | 0, _, acc => acc
  | fuel + 1, n, acc =>
    let d := Char.ofNat (48 + n % 10)
    if n < 10 then d :: acc else natReprCore fuel (n / 10) (d :: acc)

/-- Decimal rendering of an unsigned number, as `fprintf "%u"` writes it. -/
def natRepr (n : Nat) : List Char :=
  natReprCore (n + 1) n []

/-- The cell-writing loop of `write_file`: one line `"%u %u %s\n"` per cell
whose text has a non-blank character, in row-major order.  (The filename
prompt and `FILE` plumbing around the loop are I/O outside the engine.) -/
def write_cells (sh : Sheet) : List Char :=
  ((List.range nrows).map fun r =>
    ((List.range ncols).map fun c =>
      let text := (sh r c).text
      if skip_blanks text ≠ [] then
        natRepr r ++ ' ' :: (natRepr c ++ ' ' :: (text ++ ['\n']))
      else []).flatten).flatten

/-- The lines `fgets` hands to the loader: segments of the content between
newlines; a final segment without a newline is still a line, a trailing
newline ends the last line (no empty phantom line after it).  The `fgets`
1024-byte buffer cap is not modelled; the round-trip theorem restricts
texts to lengths below it. -/
def splitLinesAux : List Char → List Char → List (List Char)
  | [], acc => if acc = [] then [] else [acc.reverse]
  | '\n' :: t, acc => acc.reverse :: splitLinesAux t []
  | ch :: t, acc => splitLinesAux t (ch :: acc)

def splitLines (s : List Char) : List (List Char) :=
  splitLinesAux s []

/-- `sscanf(line, "%u %u %[^\n]", &r, &c, text)` on one line (which holds
no newline): `%u` skips blanks then needs at least one digit, twice; the
format's literal blank then skips blanks, and `%[^\n]` needs a nonempty
rest.  `none` = fewer than 3 conversions (the "Bad line in file" branch).
(A `%u` sign prefix is not modelled: `write_file` emits bare digits.) -/
def parseLine (line : List Char) : Option (Nat × Nat × List Char) :=
  let s1 := skip_blanks line
  let ds1 := s1.takeWhile Char.isDigit
  if ds1 = [] then none
  else
    let s2 := skip_blanks (s1.dropWhile Char.isDigit)
    let ds2 := s2.takeWhile Char.isDigit
    if ds2 = [] then none
    else
      let text := skip_blanks (s2.dropWhile Char.isDigit)
      if text = [] then none
      else some (digitsVal ds1, digitsVal ds2, text)

/-- One iteration of `read_file`'s loop: parse the line, skip it (with a
status-bar message, not modelled) when it fails to parse or its
coordinates are out of range, else `set_text_only`. -/
def read_line (sh : Sheet) (line : List Char) : Sheet :=
  match parseLine line with
  | none => sh
  | some (r, c, text) =>
    if nrows ≤ r ∨ ncols ≤ c then sh
    else set_text_only sh r c text

/-- `read_file` from the C source (its grid part): load every line with
`set_text_only`, then `text_updated` once at the end. -/
def read_file (sh : Sheet) (content : List Char) : Sheet :=
  text_updated ((splitLines content).foldl read_line sh)

/-- The two-cell reference cycle of the spec's scenario 4:
`(0,0) = "= 0 @ 1"`, `(0,1) = "= 0 @ 0"`. -/
def cycleSheet : Sheet :=
  set_text (set_text initSheet 0 0 "= 0 @ 1".toList) 0 1 "= 0 @ 0".toList

/-- Scenario 8: `(0,0) = "= 99 @ 0"`, a reference out of the 20-row grid. -/
def oorSheet : Sheet :=
  set_text initSheet 0 0 "= 99 @ 0".toList

/-- Scenario 1: `(0,0) = "= 2 + 3 * 4"`. -/
def arithSheet : Sheet :=
  set_text initSheet 0 0 "= 2 + 3 * 4".toList

/-- A negative base raised to a fractional exponent: IEEE `pow` yields NaN
there, but the engine raises no error (claim C10). -/
def powNaNSheet : Sheet :=
  set_text initSheet 0 0 "= ( 0 - 2 ) ^ 0.5".toList

/-- A cell whose text begins with a blank: the persistence format strips
it on reload (claim C9's counterexample). -/
def leadingBlankSheet : Sheet :=
  set_text initSheet 0 0 " x".toList

/-- A grid whose cell (0,0) is mid-evaluation: its status is the
provisional Computing marker (the interned `cycle` plaint). -/
def computingSheet : Sheet :=
  updateSheet initSheet 0 0 { text := [], plaint := some Plaint.cycle, value := 0 }

/-- The formula `= a + b * c` over decimal literals. -/
def addMulFormula (a b c : Nat) : List Char :=
  '=' :: ' ' :: (natRepr a ++ ' ' :: '+' :: ' ' :: (natRepr b ++ ' ' :: '*' :: ' ' :: natRepr c))

/-- The formula `= a ^ b ^ c` over decimal literals. -/
def powPowFormula (a b c : Nat) : List Char :=
  '=' :: ' ' :: (natRepr a ++ ' ' :: '^' :: ' ' :: (natRepr b ++ ' ' :: '^' :: ' ' :: natRepr c))

/-- The formula `= -a ^ b` over decimal literals. -/
def negPowFormula (a b : Nat) : List Char :=
  '=' :: ' ' :: '-' :: (natRepr a ++ ' ' :: '^' :: ' ' :: natRepr b)

/-- The grid the first `get_value 30 0 0 arithSheet` call leaves behind
(used to instantiate the no-edit-stability witness). -/
def arithDoneSheet : Sheet :=
  ((get_value 30 0 0 arithSheet).getD (none, 0, arithSheet)).2.2

/-- A fresh evaluator state, as `recalculate` builds it for cell (0,0)
over an empty formula (used to instantiate witnesses). -/
def e0 : Evaluator :=
  { row := 0, col := 0, token := Token.endTok, token_value := 0, s := [], plaint := none }

/-- The grid `get_value 2 5 0 initSheet` leaves behind: cell (5,0) marked
`no_formula` (used to instantiate witnesses). -/
def noFormulaResultSheet : Sheet :=
  updateSheet initSheet 5 0 { text := [], plaint := some Plaint.noFormula, value := 0 }

/-- The row-major list of all grid coordinates, the order of
`write_file`'s two nested loops. -/
def rowMajorPairs : List (Nat × Nat) :=
  ((List.range nrows).map fun r => (List.range ncols).map fun c => (r, c)).flatten

/-- The lines `write_file` emits, one per cell with non-blank text, in
row-major order, without their trailing newlines. -/
def cellLines (sh : Sheet) : List (List Char) :=
  (rowMajorPairs.map fun p =>
    if skip_blanks ((sh p.1 p.2).text) ≠ [] then
      [natRepr p.1 ++ ' ' :: (natRepr p.2 ++ ' ' :: (sh p.1 p.2).text)]
    else []).flatten

/-!  ## Theorems  -/

/-!  ### Helper lemmas: `fail`, `lex`, the measures  -/

theorem fail_plaint_ne_stale (e : Evaluator) (p : Plaint) (hp : p ≠ Plaint.stale)
    (he : e.plaint ≠ some Plaint.stale) : (fail e p).plaint ≠ some Plaint.stale := by
  unfold fail
  split
  · simpa using hp
  · exact he

theorem emeasure_fail_le (e : Evaluator) (p : Plaint) :
    emeasure (fail e p) ≤ emeasure e := by
  unfold fail emeasure
  split <;> simp

theorem length_skip_blanks_le (s : List Char) :
    (skip_blanks s).length ≤ s.length := by
  unfold skip_blanks
  induction s with
  | nil => simp
  | cons hd t iht =>
    by_cases hb : isBlankChar hd
    · rw [List.dropWhile_cons_of_pos hb]
      exact le_trans iht (by simp)
    · rw [List.dropWhile_cons_of_neg hb]

theorem length_dropWhile_le (p : Char → Bool) (s : List Char) :
    (s.dropWhile p).length ≤ s.length := by
  induction s with
  | nil => simp
  | cons hd t iht =>
    by_cases hb : p hd
    · rw [List.dropWhile_cons_of_pos hb]
      exact le_trans iht (by simp)
    · rw [List.dropWhile_cons_of_neg hb]

theorem expDigits_length (sign : Int) (u : List Char) (ex : Int) (rest : List Char)
    (h : expDigits sign u = some (ex, rest)) : rest.length ≤ u.length := by
  unfold expDigits at h
  split at h
  · simp at h
  · rw [Option.some.injEq] at h
    have hr : List.dropWhile Char.isDigit u = rest := by
      have := congrArg Prod.snd h
      simpa using this
    rw [← hr]
    exact length_dropWhile_le _ _

theorem expTail_length (t : List Char) (ex : Int) (rest : List Char)
    (h : expTail t = some (ex, rest)) : rest.length ≤ t.length := by
  unfold expTail at h
  match t with
  | [] => exact expDigits_length _ _ _ _ h
  | ch :: u =>
    simp only at h
    split at h
    · exact le_trans (expDigits_length _ _ _ _ h) (by simp)
    · split at h
      · exact le_trans (expDigits_length _ _ _ _ h) (by simp)
      · exact expDigits_length _ _ _ _ h

theorem expPart_length (s : List Char) (ex : Int) (rest : List Char)
    (h : expPart s = some (ex, rest)) : rest.length ≤ s.length := by
  unfold expPart at h
  match s with
  | [] => simp at h
  | e :: t =>
    simp only at h
    split at h
    · exact le_trans (expTail_length _ _ _ h) (by simp)
    · simp at h

theorem fracPart_length (r1 : List Char) : (fracPart r1).2.length ≤ r1.length := by
  unfold fracPart
  split
  · rename_i t2
    simp only
    exact le_trans (length_dropWhile_le _ _) (by simp)
  · simp

theorem strtodM_length (hd : Char) (t : List Char) (hdig : hd.isDigit = true) :
    (strtodM (hd :: t)).2.length < (hd :: t).length := by
  have hr1 : ((hd :: t).dropWhile Char.isDigit).length ≤ t.length := by
    rw [List.dropWhile_cons_of_pos hdig]
    exact length_dropWhile_le _ _
  have hr2 : ((fracPart ((hd :: t).dropWhile Char.isDigit)).2).length ≤ t.length :=
    le_trans (fracPart_length _) hr1
  unfold strtodM
  simp only
  split
  · rename_i ex r3 hexp
    have := expPart_length _ _ _ hexp
    simp only [List.length_cons]
    omega
  · simp only [List.length_cons]
    omega

theorem lex_emeasure (e : Evaluator) :
    emeasure (lex e) ≤ emeasure e
    ∧ (e.token ≠ Token.endTok → emeasure (lex e) < emeasure e) := by
  have hsb : (skip_blanks e.s).length ≤ e.s.length := length_skip_blanks_le _
  unfold lex
  simp only
  split
  · rename_i heq
    constructor
    · by_cases htok : e.token = Token.endTok <;> simp [emeasure, htok]
    · intro hne
      simp [emeasure, hne]
  · rename_i ch rest heq
    have hlen : rest.length + 1 ≤ e.s.length := by
      have h2 := hsb
      rw [heq] at h2
      simpa using h2
    split
    · rename_i hd
      have hst := strtodM_length ch rest hd
      simp only [List.length_cons] at hst
      constructor
      · by_cases htok : e.token = Token.endTok <;> simp [emeasure, htok] <;> omega
      · intro hne
        simp [emeasure, hne]
        omega
    · split
      · constructor
        · by_cases htok : e.token = Token.endTok <;> simp [emeasure, htok] <;> omega
        · intro hne
          simp [emeasure, hne]
          omega
      · unfold fail
        split
        · constructor
          · simp [emeasure]
          · intro hne
            simp [emeasure, hne]
        · constructor
          · by_cases htok : e.token = Token.endTok <;> simp [emeasure, htok] <;> omega
          · intro hne
            simp [emeasure, hne]
            omega

theorem lex_plaint_ne_stale (e : Evaluator) (he : e.plaint ≠ some Plaint.stale) :
    (lex e).plaint ≠ some Plaint.stale := by
  unfold lex
  simp only
  split
  · exact he
  · split
    · exact he
    · split
      · exact he
      · exact fail_plaint_ne_stale _ _ (by decide) he

theorem staleLE_refl (sh : Sheet) : staleLE sh sh :=
  fun _ _ _ _ h => h

theorem staleLE_trans {sh3 sh2 sh1 : Sheet} (h32 : staleLE sh3 sh2)
    (h21 : staleLE sh2 sh1) : staleLE sh3 sh1 :=
  fun r c hr hc h => h21 r c hr hc (h32 r c hr hc h)

theorem staleLE_update (sh : Sheet) (r c : Nat) (cell : Cell)
    (h : cell.plaint ≠ some Plaint.stale) : staleLE (updateSheet sh r c cell) sh := by
  intro i j _ _ hst
  unfold updateSheet at hst
  split at hst
  · exact absurd hst h
  · exact hst

theorem staleCount_le {sh2 sh1 : Sheet} (h : staleLE sh2 sh1) :
    staleCount sh2 ≤ staleCount sh1 := by
  apply Finset.card_le_card
  intro p hp
  simp only [staleSet, Finset.mem_filter, Finset.mem_product, Finset.mem_range] at hp ⊢
  exact ⟨hp.1, h p.1 p.2 hp.1.1 hp.1.2 hp.2⟩

theorem staleCount_lt {sh2 sh1 : Sheet} (h : staleLE sh2 sh1) (rn cn : Nat)
    (hr : rn < nrows) (hc : cn < ncols)
    (h1 : (sh1 rn cn).plaint = some Plaint.stale)
    (h2 : (sh2 rn cn).plaint ≠ some Plaint.stale) :
    staleCount sh2 < staleCount sh1 := by
  apply Finset.card_lt_card
  constructor
  · intro p hp
    simp only [staleSet, Finset.mem_filter, Finset.mem_product, Finset.mem_range] at hp ⊢
    exact ⟨hp.1, h p.1 p.2 hp.1.1 hp.1.2 hp.2⟩
  · intro hsup
    have hmem : (rn, cn) ∈ staleSet sh1 := by
      simp only [staleSet, Finset.mem_filter, Finset.mem_product, Finset.mem_range]
      exact ⟨⟨hr, hc⟩, h1⟩
    have hmem2 := hsup hmem
    simp only [staleSet, Finset.mem_filter] at hmem2
    exact h2 hmem2.2

/-!  ### The engine invariants

One induction on fuel establishes, for all eight mutually recursive
engine functions at once: the set of stale cells only shrinks, the parser
measure never grows, a latched plaint is never the `stale` marker, and
`get_value` reports exactly the final state of the addressed cell. -/

theorem engine_inv (fuel : Nat) :
    (∀ e sh v e1 sh1, parse_factor fuel e sh = some (v, e1, sh1) →
      staleLE sh1 sh ∧ emeasure e1 ≤ emeasure e
        ∧ (e.plaint ≠ some Plaint.stale → e1.plaint ≠ some Plaint.stale))
    ∧ (∀ e rator lhs rhs sh v e1 sh1, apply fuel e rator lhs rhs sh = some (v, e1, sh1) →
      staleLE sh1 sh ∧ emeasure e1 ≤ emeasure e
        ∧ (e.plaint ≠ some Plaint.stale → e1.plaint ≠ some Plaint.stale))
    ∧ (∀ prec e sh v e1 sh1, parse_expr fuel prec e sh = some (v, e1, sh1) →
      staleLE sh1 sh ∧ emeasure e1 ≤ emeasure e
        ∧ (e.plaint ≠ some Plaint.stale → e1.plaint ≠ some Plaint.stale))
    ∧ (∀ prec lhs e sh v e1 sh1, parse_expr_loop fuel prec lhs e sh = some (v, e1, sh1) →
      staleLE sh1 sh ∧ emeasure e1 ≤ emeasure e
        ∧ (e.plaint ≠ some Plaint.stale → e1.plaint ≠ some Plaint.stale))
    ∧ (∀ e r c sh v e1 sh1, refer fuel e r c sh = some (v, e1, sh1) →
      staleLE sh1 sh ∧ emeasure e1 ≤ emeasure e
        ∧ (e.plaint ≠ some Plaint.stale → e1.plaint ≠ some Plaint.stale))
    ∧ (∀ e sh v p sh1, evaluate fuel e sh = some (v, p, sh1) →
      staleLE sh1 sh ∧ (e.plaint ≠ some Plaint.stale → p ≠ some Plaint.stale))
    ∧ (∀ r c sh sh1, recalculate fuel r c sh = some sh1 →
      staleLE sh1 sh ∧ (sh1 r c).plaint ≠ some Plaint.stale)
    ∧ (∀ r c sh p v sh1, get_value fuel r c sh = some (p, v, sh1) →
      staleLE sh1 sh ∧ p ≠ some Plaint.stale
        ∧ ((r < 0 ∨ (nrows : Int) ≤ r ∨ c < 0 ∨ (ncols : Int) ≤ c) →
            sh1 = sh ∧ p = some Plaint.outOfRange ∧ v = 0)
        ∧ (¬(r < 0 ∨ (nrows : Int) ≤ r ∨ c < 0 ∨ (ncols : Int) ≤ c) →
            (sh1 r.toNat c.toNat).plaint = p
              ∧ v = (if p = none then (sh1 r.toNat c.toNat).value else 0))) := by
  induction fuel with
  | zero =>
    refine ⟨?_, ?_, ?_, ?_, ?_, ?_, ?_, ?_⟩ <;>
      · intros
        simp_all [parse_factor, apply, parse_expr, parse_expr_loop, refer, evaluate,
                  recalculate, get_value]
  | succ n ih =>
    obtain ⟨ihF, ihA, ihE, ihL, ihR, ihV, ihC, ihG⟩ := ih
    refine ⟨?_, ?_, ?_, ?_, ?_, ?_, ?_, ?_⟩
    -- parse_factor
    · intro e sh v e1 sh1 h
      simp only [parse_factor] at h
      split at h
      · simp only [Option.some.injEq, Prod.mk.injEq] at h
        obtain ⟨rfl, rfl, rfl⟩ := h
        exact ⟨staleLE_refl _, (lex_emeasure e).1, fun hp => lex_plaint_ne_stale e hp⟩
      · split at h
        · exact absurd h (by simp)
        · rename_i v2 e2 sh2 hcall
          simp only [Option.some.injEq, Prod.mk.injEq] at h
          obtain ⟨rfl, rfl, rfl⟩ := h
          obtain ⟨hs, hm, hp⟩ := ihF _ _ _ _ _ hcall
          exact ⟨hs, le_trans hm (lex_emeasure e).1,
            fun h0 => hp (lex_plaint_ne_stale e h0)⟩
      · simp only [Option.some.injEq, Prod.mk.injEq] at h
        obtain ⟨rfl, rfl, rfl⟩ := h
        exact ⟨staleLE_refl _, (lex_emeasure e).1, fun hp => lex_plaint_ne_stale e hp⟩
      · simp only [Option.some.injEq, Prod.mk.injEq] at h
        obtain ⟨rfl, rfl, rfl⟩ := h
        exact ⟨staleLE_refl _, (lex_emeasure e).1, fun hp => lex_plaint_ne_stale e hp⟩
      · split at h
        · exact absurd h (by simp)
        · rename_i v2 e2 sh2 hcall
          simp only [Option.some.injEq, Prod.mk.injEq] at h
          obtain ⟨rfl, rfl, rfl⟩ := h
          obtain ⟨hs, hm, hp⟩ := ihE _ _ _ _ _ _ hcall
          refine ⟨hs, ?_, ?_⟩
          · have h1 : emeasure (if e2.token ≠ Token.op ')' then
                fail e2 Plaint.expectedRparen else e2) ≤ emeasure e2 := by
              split
              · exact emeasure_fail_le _ _
              · exact le_refl _
            calc emeasure (lex _) ≤ _ := (lex_emeasure _).1
              _ ≤ emeasure e2 := h1
              _ ≤ emeasure (lex e) := hm
              _ ≤ emeasure e := (lex_emeasure e).1
          · intro h0
            apply lex_plaint_ne_stale
            have h2 := hp (lex_plaint_ne_stale e h0)
            split
            · exact fail_plaint_ne_stale _ _ (by decide) h2
            · exact h2
      · simp only [Option.some.injEq, Prod.mk.injEq] at h
        obtain ⟨rfl, rfl, rfl⟩ := h
        refine ⟨staleLE_refl _, ?_, ?_⟩
        · calc emeasure (lex (fail e Plaint.expectedFactor))
              ≤ emeasure (fail e Plaint.expectedFactor) := (lex_emeasure _).1
            _ ≤ emeasure e := emeasure_fail_le _ _
        · intro h0
          exact lex_plaint_ne_stale _ (fail_plaint_ne_stale _ _ (by decide) h0)
    -- apply
    · intro e rator lhs rhs sh v e1 sh1 h
      simp only [apply] at h
      split_ifs at h
      all_goals
        first
        | (simp only [zero_divide, Option.some.injEq, Prod.mk.injEq] at h
           obtain ⟨rfl, rfl, rfl⟩ := h
           exact ⟨staleLE_refl _, emeasure_fail_le _ _,
             fun hp => fail_plaint_ne_stale _ _ (by decide) hp⟩)
        | (simp only [Option.some.injEq, Prod.mk.injEq] at h
           obtain ⟨rfl, rfl, rfl⟩ := h
           exact ⟨staleLE_refl _, le_refl _, fun hp => hp⟩)
        | exact ihR _ _ _ _ _ _ _ h
    -- parse_expr
    · intro prec e sh v e1 sh1 h
      simp only [parse_expr] at h
      split at h
      · exact absurd h (by simp)
      · rename_i lhs e2 sh2 hcall
        obtain ⟨hs, hm, hp⟩ := ihF _ _ _ _ _ hcall
        obtain ⟨hs2, hm2, hp2⟩ := ihL _ _ _ _ _ _ _ h
        exact ⟨staleLE_trans hs2 hs, le_trans hm2 hm, fun h0 => hp2 (hp h0)⟩
    -- parse_expr_loop
    · intro prec lhs e sh v e1 sh1 h
      simp only [parse_expr_loop] at h
      split at h
      · split at h
        · split at h
          · simp only [Option.some.injEq, Prod.mk.injEq] at h
            obtain ⟨rfl, rfl, rfl⟩ := h
            exact ⟨staleLE_refl _, le_refl _, fun hp => hp⟩
          · split at h
            · exact absurd h (by simp)
            · rename_i rhs e2 sh2 hcall
              split at h
              · exact absurd h (by simp)
              · rename_i v2 e3 sh3 happ
                obtain ⟨hsE, hmE, hpE⟩ := ihE _ _ _ _ _ _ hcall
                obtain ⟨hsA, hmA, hpA⟩ := ihA _ _ _ _ _ _ _ _ happ
                obtain ⟨hsL, hmL, hpL⟩ := ihL _ _ _ _ _ _ _ h
                rename_i rator0 hrat lppair lp rp hlp hnlt
                refine ⟨staleLE_trans hsL (staleLE_trans hsA hsE), ?_, ?_⟩
                · calc emeasure e1 ≤ emeasure e3 := hmL
                    _ ≤ emeasure e2 := hmA
                    _ ≤ emeasure (lex e) := hmE
                    _ ≤ emeasure e := (lex_emeasure e).1
                · intro h0
                  exact hpL (hpA (hpE (lex_plaint_ne_stale e h0)))
        · simp only [Option.some.injEq, Prod.mk.injEq] at h
          obtain ⟨rfl, rfl, rfl⟩ := h
          exact ⟨staleLE_refl _, le_refl _, fun hp => hp⟩
      · simp only [Option.some.injEq, Prod.mk.injEq] at h
        obtain ⟨rfl, rfl, rfl⟩ := h
        exact ⟨staleLE_refl _, le_refl _, fun hp => hp⟩
    -- refer
    · intro e r c sh v e1 sh1 h
      simp only [refer] at h
      split at h
      · simp only [Option.some.injEq, Prod.mk.injEq] at h
        obtain ⟨rfl, rfl, rfl⟩ := h
        exact ⟨staleLE_refl _, emeasure_fail_le _ _,
          fun hp => fail_plaint_ne_stale _ _ (by decide) hp⟩
      · split at h
        · exact absurd h (by simp)
        · rename_i p value sh2 hget
          obtain ⟨hsG, hpG, _, _⟩ := ihG _ _ _ _ _ _ hget
          split at h
          · rename_i q hq
            simp only [Option.some.injEq, Prod.mk.injEq] at h
            obtain ⟨rfl, rfl, rfl⟩ := h
            refine ⟨hsG, emeasure_fail_le _ _, fun h0 => ?_⟩
            apply fail_plaint_ne_stale _ _ ?_ h0
            -- q is upstream, or the referred plaint itself (never stale)
            revert hq
            match p with
            | none => intro hq; exact absurd hq (by simp)
            | some q0 =>
              intro hq
              simp only at hq
              split at hq
              · simp only [Option.some.injEq] at hq
                subst hq
                decide
              · simp only [Option.some.injEq] at hq
                subst hq
                intro hq0
                exact hpG (by rw [hq0])
          · simp only [Option.some.injEq, Prod.mk.injEq] at h
            obtain ⟨rfl, rfl, rfl⟩ := h
            exact ⟨hsG, le_refl _, fun hp => hp⟩
    -- evaluate
    · intro e sh v p sh1 h
      simp only [evaluate] at h
      split at h
      · exact absurd h (by simp)
      · rename_i v2 e2 sh2 hcall
        simp only [Option.some.injEq, Prod.mk.injEq] at h
        obtain ⟨rfl, rfl, rfl⟩ := h
        obtain ⟨hs, _, hp⟩ := ihE _ _ _ _ _ _ hcall
        refine ⟨hs, fun h0 => ?_⟩
        have h2 := hp (lex_plaint_ne_stale e h0)
        split
        · exact fail_plaint_ne_stale _ _ (by decide) h2
        · exact h2
    -- recalculate
    · intro r c sh sh1 h
      simp only [recalculate] at h
      split at h
      · simp only [Option.some.injEq] at h
        subst h
        refine ⟨staleLE_update _ _ _ _ (by simp), by simp [updateSheet]⟩
      · rename_i body hbody
        split at h
        · exact absurd h (by simp)
        · rename_i v2 p sh2 hev
          simp only [Option.some.injEq] at h
          subst h
          obtain ⟨hsV, hpV⟩ := ihV _ _ _ _ _ hev
          have hpns : p ≠ some Plaint.stale := hpV (by simp)
          refine ⟨?_, by simp [updateSheet, hpns]⟩
          apply staleLE_trans (staleLE_update _ _ _ _ (by simpa using hpns))
          exact staleLE_trans hsV (staleLE_update _ _ _ _ (by simp))
    -- get_value
    · intro r c sh p v sh1 h
      simp only [get_value] at h
      split at h
      · rename_i hoor
        simp only [Option.some.injEq, Prod.mk.injEq] at h
        obtain ⟨rfl, rfl, rfl⟩ := h
        exact ⟨staleLE_refl _, by decide, fun _ => ⟨rfl, rfl, rfl⟩,
          fun hin => absurd hoor hin⟩
      · rename_i hoor
        split at h
        · exact absurd h (by simp)
        · rename_i sh2 hrec
          simp only [Option.some.injEq, Prod.mk.injEq] at h
          obtain ⟨rfl, rfl, rfl⟩ := h
          by_cases hst : (sh r.toNat c.toNat).plaint = some Plaint.stale
          · rw [if_pos hst] at hrec
            obtain ⟨hsC, hpC⟩ := ihC _ _ _ _ hrec
            exact ⟨hsC, hpC, fun hx => absurd hx hoor, fun _ => ⟨rfl, rfl⟩⟩
          · rw [if_neg hst] at hrec
            simp only [Option.some.injEq] at hrec
            subst hrec
            exact ⟨staleLE_refl _, hst, fun hx => absurd hx hoor, fun _ => ⟨rfl, rfl⟩⟩

/-!  ### Fuel monotonicity

A result obtained with some fuel is unchanged by any additional fuel: the
fuel is a technical device for the C recursion, not part of the
semantics. -/

theorem engine_mono (fuel : Nat) :
    (∀ e sh out, parse_factor fuel e sh = some out → parse_factor (fuel + 1) e sh = some out)
    ∧ (∀ e rator lhs rhs sh out, apply fuel e rator lhs rhs sh = some out →
        apply (fuel + 1) e rator lhs rhs sh = some out)
    ∧ (∀ prec e sh out, parse_expr fuel prec e sh = some out →
        parse_expr (fuel + 1) prec e sh = some out)
    ∧ (∀ prec lhs e sh out, parse_expr_loop fuel prec lhs e sh = some out →
        parse_expr_loop (fuel + 1) prec lhs e sh = some out)
    ∧ (∀ e r c sh out, refer fuel e r c sh = some out →
        refer (fuel + 1) e r c sh = some out)
    ∧ (∀ e sh out, evaluate fuel e sh = some out → evaluate (fuel + 1) e sh = some out)
    ∧ (∀ r c sh out, recalculate fuel r c sh = some out →
        recalculate (fuel + 1) r c sh = some out)
    ∧ (∀ r c sh out, get_value fuel r c sh = some out →
        get_value (fuel + 1) r c sh = some out) := by
  induction fuel with
  | zero =>
    refine ⟨?_, ?_, ?_, ?_, ?_, ?_, ?_, ?_⟩ <;>
      · intros
        simp_all [parse_factor, apply, parse_expr, parse_expr_loop, refer, evaluate,
                  recalculate, get_value]
  | succ n ih =>
    obtain ⟨ihF, ihA, ihE, ihL, ihR, ihV, ihC, ihG⟩ := ih
    refine ⟨?_, ?_, ?_, ?_, ?_, ?_, ?_, ?_⟩
    -- parse_factor
    · intro e sh out h
      simp only [parse_factor] at h
      rw [parse_factor]
      split at h
      · exact h
      · split at h
        · exact absurd h (by simp)
        · rename_i v2 e2 sh2 hcall
          rw [ihF _ _ _ hcall]
          exact h
      · exact h
      · exact h
      · split at h
        · exact absurd h (by simp)
        · rename_i v2 e2 sh2 hcall
          rw [ihE _ _ _ _ hcall]
          exact h
      · exact h
    -- apply
    · intro e rator lhs rhs sh out h
      simp only [apply] at h ⊢
      split_ifs at h ⊢ <;>
        first
        | exact h
        | exact ihR _ _ _ _ _ h
    -- parse_expr
    · intro prec e sh out h
      simp only [parse_expr] at h ⊢
      split at h
      · exact absurd h (by simp)
      · rename_i lhs e2 sh2 hcall
        rw [ihF _ _ _ hcall]
        exact ihL _ _ _ _ _ h
    -- parse_expr_loop
    · intro prec lhs e sh out h
      simp only [parse_expr_loop] at h
      rw [parse_expr_loop]
      split at h
      · split at h
        · rename_i rator heqtok lppair lp rp heqprec
          by_cases hlt : lp < prec
          · rw [if_pos hlt] at h ⊢
            exact h
          · rw [if_neg hlt] at h ⊢
            split at h
            · exact absurd h (by simp)
            · rename_i rhs e2 sh2 hcall
              rw [ihE _ _ _ _ hcall]
              split at h
              · exact absurd h (by simp)
              · rename_i v2 e3 sh3 happ
                rw [ihA _ _ _ _ _ _ happ]
                exact ihL _ _ _ _ _ h
        · exact h
      · exact h
    -- refer
    · intro e r c sh out h
      simp only [refer] at h ⊢
      by_cases hcond : (r ≠ (ratTrunc r : ℚ) ∨ c ≠ (ratTrunc c : ℚ))
      · rw [if_pos hcond] at h ⊢
        exact h
      · rw [if_neg hcond] at h ⊢
        split at h
        · exact absurd h (by simp)
        · rename_i p value sh2 hget
          rw [ihG _ _ _ _ hget]
          exact h
    -- evaluate
    · intro e sh out h
      simp only [evaluate] at h ⊢
      split at h
      · exact absurd h (by simp)
      · rename_i v2 e2 sh2 hcall
        rw [ihE _ _ _ _ hcall]
        exact h
    -- recalculate
    · intro r c sh out h
      simp only [recalculate] at h ⊢
      split at h
      · exact h
      · split at h
        · exact absurd h (by simp)
        · rename_i v2 p sh2 hev
          rw [ihV _ _ _ hev]
          exact h
    -- get_value
    · intro r c sh out h
      simp only [get_value] at h ⊢
      by_cases hcond : (r < 0 ∨ (nrows : Int) ≤ r ∨ c < 0 ∨ (ncols : Int) ≤ c)
      · rw [if_pos hcond] at h ⊢
        exact h
      · rw [if_neg hcond] at h ⊢
        split at h
        · exact absurd h (by simp)
        · rename_i sh2 hrec
          by_cases hst : (sh r.toNat c.toNat).plaint = some Plaint.stale
          · rw [if_pos hst] at hrec
            rw [if_pos hst, ihC _ _ _ _ hrec]
            exact h
          · rw [if_neg hst] at hrec
            simp only [Option.some.injEq] at hrec
            subst hrec
            rw [if_neg hst]
            exact h

/-- Any fuel at least as large gives the same result
(for `get_value`, the only engine entry point the claims use). -/
theorem get_value_mono {f g : Nat} (hfg : f ≤ g) {r c : Int} {sh : Sheet}
    {out : Option Plaint × Value × Sheet} (h : get_value f r c sh = some out) :
    get_value g r c sh = some out := by
  induction g with
  | zero =>
    have : f = 0 := Nat.le_zero.mp hfg
    subst this
    exact h
  | succ m ihm =>
    rcases Nat.lt_or_ge f (m + 1) with hlt | hge
    · exact (engine_mono m).2.2.2.2.2.2.2 _ _ _ _ (ihm (Nat.lt_succ_iff.mp hlt))
    · have : f = m + 1 := le_antisymm hfg hge
      subst this
      exact h

theorem parse_factor_mono {f g : Nat} (hfg : f ≤ g) {e : Evaluator} {sh : Sheet}
    {out : Value × Evaluator × Sheet} (h : parse_factor f e sh = some out) :
    parse_factor g e sh = some out := by
  induction g with
  | zero =>
    have h0 : f = 0 := Nat.le_zero.mp hfg
    subst h0
    exact h
  | succ m ihm =>
    rcases Nat.lt_or_ge f (m + 1) with hlt | hge
    · exact (engine_mono m).1 _ _ _ (ihm (Nat.lt_succ_iff.mp hlt))
    · have h0 : f = m + 1 := le_antisymm hfg hge
      subst h0
      exact h

theorem apply_mono {f g : Nat} (hfg : f ≤ g) {e : Evaluator} {rator : Char}
    {lhs rhs : Value} {sh : Sheet} {out : Value × Evaluator × Sheet}
    (h : apply f e rator lhs rhs sh = some out) : apply g e rator lhs rhs sh = some out := by
  induction g with
  | zero =>
    have h0 : f = 0 := Nat.le_zero.mp hfg
    subst h0
    exact h
  | succ m ihm =>
    rcases Nat.lt_or_ge f (m + 1) with hlt | hge
    · exact (engine_mono m).2.1 _ _ _ _ _ _ (ihm (Nat.lt_succ_iff.mp hlt))
    · have h0 : f = m + 1 := le_antisymm hfg hge
      subst h0
      exact h

theorem parse_expr_mono {f g : Nat} (hfg : f ≤ g) {prec : Nat} {e : Evaluator}
    {sh : Sheet} {out : Value × Evaluator × Sheet}
    (h : parse_expr f prec e sh = some out) : parse_expr g prec e sh = some out := by
  induction g with
  | zero =>
    have h0 : f = 0 := Nat.le_zero.mp hfg
    subst h0
    exact h
  | succ m ihm =>
    rcases Nat.lt_or_ge f (m + 1) with hlt | hge
    · exact (engine_mono m).2.2.1 _ _ _ _ (ihm (Nat.lt_succ_iff.mp hlt))
    · have h0 : f = m + 1 := le_antisymm hfg hge
      subst h0
      exact h

theorem parse_expr_loop_mono {f g : Nat} (hfg : f ≤ g) {prec : Nat} {lhs : Value}
    {e : Evaluator} {sh : Sheet} {out : Value × Evaluator × Sheet}
    (h : parse_expr_loop f prec lhs e sh = some out) :
    parse_expr_loop g prec lhs e sh = some out := by
  induction g with
  | zero =>
    have h0 : f = 0 := Nat.le_zero.mp hfg
    subst h0
    exact h
  | succ m ihm =>
    rcases Nat.lt_or_ge f (m + 1) with hlt | hge
    · exact (engine_mono m).2.2.2.1 _ _ _ _ _ (ihm (Nat.lt_succ_iff.mp hlt))
    · have h0 : f = m + 1 := le_antisymm hfg hge
      subst h0
      exact h

theorem refer_mono {f g : Nat} (hfg : f ≤ g) {e : Evaluator} {r c : Value}
    {sh : Sheet} {out : Value × Evaluator × Sheet}
    (h : refer f e r c sh = some out) : refer g e r c sh = some out := by
  induction g with
  | zero =>
    have h0 : f = 0 := Nat.le_zero.mp hfg
    subst h0
    exact h
  | succ m ihm =>
    rcases Nat.lt_or_ge f (m + 1) with hlt | hge
    · exact (engine_mono m).2.2.2.2.1 _ _ _ _ _ (ihm (Nat.lt_succ_iff.mp hlt))
    · have h0 : f = m + 1 := le_antisymm hfg hge
      subst h0
      exact h

theorem evaluate_mono {f g : Nat} (hfg : f ≤ g) {e : Evaluator} {sh : Sheet}
    {out : Value × Option Plaint × Sheet}
    (h : evaluate f e sh = some out) : evaluate g e sh = some out := by
  induction g with
  | zero =>
    have h0 : f = 0 := Nat.le_zero.mp hfg
    subst h0
    exact h
  | succ m ihm =>
    rcases Nat.lt_or_ge f (m + 1) with hlt | hge
    · exact (engine_mono m).2.2.2.2.2.1 _ _ _ (ihm (Nat.lt_succ_iff.mp hlt))
    · have h0 : f = m + 1 := le_antisymm hfg hge
      subst h0
      exact h

theorem recalculate_mono {f g : Nat} (hfg : f ≤ g) {r c : Nat} {sh : Sheet}
    {out : Sheet} (h : recalculate f r c sh = some out) :
    recalculate g r c sh = some out := by
  induction g with
  | zero =>
    have h0 : f = 0 := Nat.le_zero.mp hfg
    subst h0
    exact h
  | succ m ihm =>
    rcases Nat.lt_or_ge f (m + 1) with hlt | hge
    · exact (engine_mono m).2.2.2.2.2.2.1 _ _ _ _ (ihm (Nat.lt_succ_iff.mp hlt))
    · have h0 : f = m + 1 := le_antisymm hfg hge
      subst h0
      exact h

theorem staleCount_pos {sh : Sheet} {rn cn : Nat} (hr : rn < nrows) (hc : cn < ncols)
    (h : (sh rn cn).plaint = some Plaint.stale) : 1 ≤ staleCount sh := by
  have hmem : (rn, cn) ∈ staleSet sh := by
    simp only [staleSet, Finset.mem_filter, Finset.mem_product, Finset.mem_range]
    exact ⟨⟨hr, hc⟩, h⟩
  exact Finset.card_pos.mpr ⟨_, hmem⟩

/-!  ### Sufficient fuel always exists

By strong induction on the number of stale cells (with an inner strong
induction on the parser measure): every engine function, on every input,
returns a result for some fuel.  Combined with fuel monotonicity this is
the termination argument of the C recursion: the provisional Computing
mark strictly shrinks the stale set before any re-entry, and each parse
consumes its finite text. -/

theorem engine_ex (n : Nat) :
    (∀ sh (r c : Nat), staleCount sh ≤ n → r < nrows → c < ncols →
      (sh r c).plaint = some Plaint.stale → ∃ f, (recalculate f r c sh).isSome)
    ∧ (∀ sh (r c : Int), staleCount sh ≤ n → ∃ f, (get_value f r c sh).isSome)
    ∧ (∀ sh e (r c : Value), staleCount sh ≤ n → ∃ f, (refer f e r c sh).isSome)
    ∧ (∀ sh e (rator : Char) (lhs rhs : Value), staleCount sh ≤ n →
        ∃ f, (apply f e rator lhs rhs sh).isSome)
    ∧ (∀ m, (∀ sh e, staleCount sh ≤ n → emeasure e ≤ m →
          ∃ f, (parse_factor f e sh).isSome)
        ∧ (∀ sh (prec : Nat) (lhs : Value) e, staleCount sh ≤ n → emeasure e ≤ m →
          ∃ f, (parse_expr_loop f prec lhs e sh).isSome)
        ∧ (∀ sh (prec : Nat) e, staleCount sh ≤ n → emeasure e ≤ m →
          ∃ f, (parse_expr f prec e sh).isSome))
    ∧ (∀ sh e, staleCount sh ≤ n → ∃ f, (evaluate f e sh).isSome) := by
  induction n using Nat.strong_induction_on with
  | _ n IH =>
  -- recalculate, on a stale in-grid cell
  have hC : ∀ sh (r c : Nat), staleCount sh ≤ n → r < nrows → c < ncols →
      (sh r c).plaint = some Plaint.stale → ∃ f, (recalculate f r c sh).isSome := by
    intro sh r c hsc hr hc hst
    cases hform : find_formula (sh r c).text with
    | none =>
      exact ⟨0 + 1, by simp [recalculate, hform]⟩
    | some body =>
      have hpos : 1 ≤ staleCount sh := staleCount_pos hr hc hst
      have hdec : staleCount (updateSheet sh r c { sh r c with plaint := some Plaint.cycle })
          < staleCount sh := by
        apply staleCount_lt (staleLE_update _ _ _ _ (by simp)) r c hr hc hst
        simp [updateSheet]
      obtain ⟨f1, hf1⟩ := (IH (n - 1) (by omega)).2.2.2.2.2
        (updateSheet sh r c { sh r c with plaint := some Plaint.cycle })
        { row := r, col := c, token := Token.endTok, token_value := 0,
          s := body, plaint := none }
        (by omega)
      obtain ⟨⟨v1, p1, sh2⟩, hf1x⟩ := Option.isSome_iff_exists.mp hf1
      refine ⟨f1 + 1, ?_⟩
      simp [recalculate, hform, hf1x]
  -- get_value
  have hG : ∀ sh (r c : Int), staleCount sh ≤ n → ∃ f, (get_value f r c sh).isSome := by
    intro sh r c hsc
    by_cases hoor : (r < 0 ∨ (nrows : Int) ≤ r ∨ c < 0 ∨ (ncols : Int) ≤ c)
    · exact ⟨0 + 1, by simp [get_value, hoor]⟩
    · by_cases hst : (sh r.toNat c.toNat).plaint = some Plaint.stale
      · have hr : r.toNat < nrows := by
          push_neg at hoor
          omega
        have hc : c.toNat < ncols := by
          push_neg at hoor
          omega
        obtain ⟨f1, hf1⟩ := hC sh r.toNat c.toNat hsc hr hc hst
        obtain ⟨sh2, hf1x⟩ := Option.isSome_iff_exists.mp hf1
        refine ⟨f1 + 1, ?_⟩
        simp [get_value, hoor, hst, hf1x]
      · exact ⟨0 + 1, by simp [get_value, hoor, hst]⟩
  -- refer
  have hR : ∀ sh e (r c : Value), staleCount sh ≤ n → ∃ f, (refer f e r c sh).isSome := by
    intro sh e r c hsc
    by_cases hni : (r ≠ (ratTrunc r : ℚ) ∨ c ≠ (ratTrunc c : ℚ))
    · exact ⟨0 + 1, by simp [refer, hni]⟩
    · obtain ⟨f1, hf1⟩ := hG sh (ratTrunc r) (ratTrunc c) hsc
      obtain ⟨⟨p, value, sh2⟩, hf1x⟩ := Option.isSome_iff_exists.mp hf1
      refine ⟨f1 + 1, ?_⟩
      rw [refer]
      rw [if_neg hni, hf1x]
      split
      · rename_i heq
        exact absurd heq (by simp)
      · rename_i p2 value2 sh3 heq
        simp only [Option.some.injEq, Prod.mk.injEq] at heq
        obtain ⟨h1, h2, h3⟩ := heq
        subst h1
        subst h2
        subst h3
        split <;> first | (split <;> simp) | simp
  -- apply
  have hA : ∀ sh e (rator : Char) (lhs rhs : Value), staleCount sh ≤ n →
      ∃ f, (apply f e rator lhs rhs sh).isSome := by
    intro sh e rator lhs rhs hsc
    obtain ⟨f1, hf1⟩ := hR sh e lhs rhs hsc
    refine ⟨f1 + 1, ?_⟩
    simp only [apply]
    split_ifs <;> first | simp | exact hf1
  -- the parser, by strong induction on the measure
  have hQ : ∀ m, (∀ sh e, staleCount sh ≤ n → emeasure e ≤ m →
        ∃ f, (parse_factor f e sh).isSome)
      ∧ (∀ sh (prec : Nat) (lhs : Value) e, staleCount sh ≤ n → emeasure e ≤ m →
        ∃ f, (parse_expr_loop f prec lhs e sh).isSome)
      ∧ (∀ sh (prec : Nat) e, staleCount sh ≤ n → emeasure e ≤ m →
        ∃ f, (parse_expr f prec e sh).isSome) := by
    intro m
    induction m using Nat.strong_induction_on with
    | _ m IHm =>
    have hF : ∀ sh e, staleCount sh ≤ n → emeasure e ≤ m →
        ∃ f, (parse_factor f e sh).isSome := by
      intro sh e hsc hm
      by_cases hminus : e.token = Token.op '-'
      · have hlt : emeasure (lex e) < emeasure e :=
          (lex_emeasure e).2 (by simp [hminus])
        obtain ⟨f1, hf1⟩ := (IHm (m - 1) (by omega)).1 sh (lex e) hsc (by omega)
        obtain ⟨⟨v1, e1, sh1⟩, hf1x⟩ := Option.isSome_iff_exists.mp hf1
        refine ⟨f1 + 1, ?_⟩
        rw [parse_factor]
        split
        · simp
        · rename_i heq
          rw [hf1x]
          simp
        · simp
        · simp
        · rename_i heq
          rw [hminus] at heq
          simp at heq
        · simp
      · by_cases hparen : e.token = Token.op '('
        · have hlt : emeasure (lex e) < emeasure e :=
            (lex_emeasure e).2 (by simp [hparen])
          obtain ⟨f1, hf1⟩ := (IHm (m - 1) (by omega)).2.2 sh 0 (lex e) hsc (by omega)
          obtain ⟨⟨v1, e1, sh1⟩, hf1x⟩ := Option.isSome_iff_exists.mp hf1
          refine ⟨f1 + 1, ?_⟩
          rw [parse_factor]
          split
          · simp
          · rename_i heq
            rw [hparen] at heq
            simp at heq
          · simp
          · simp
          · rename_i heq
            rw [hf1x]
            simp
          · simp
        · refine ⟨0 + 1, ?_⟩
          rw [parse_factor]
          split
          · simp
          · rename_i heq
            exact absurd heq hminus
          · simp
          · simp
          · rename_i heq
            exact absurd heq hparen
          · simp
    have hL : ∀ sh (prec : Nat) (lhs : Value) e, staleCount sh ≤ n → emeasure e ≤ m →
        ∃ f, (parse_expr_loop f prec lhs e sh).isSome := by
      intro sh prec lhs e hsc hm
      rcases htok : e.token with _ | _ | rator
      · exact ⟨0 + 1, by simp [parse_expr_loop, htok]⟩
      · exact ⟨0 + 1, by simp [parse_expr_loop, htok]⟩
      · rcases hprec : opPrec rator with _ | ⟨lp, rp⟩
        · exact ⟨0 + 1, by simp [parse_expr_loop, htok, hprec]⟩
        · by_cases hlt : lp < prec
          · exact ⟨0 + 1, by simp [parse_expr_loop, htok, hprec, hlt]⟩
          · have hlex : emeasure (lex e) < emeasure e :=
              (lex_emeasure e).2 (by simp [htok])
            obtain ⟨f1, hf1⟩ :=
              (IHm (m - 1) (by omega)).2.2 sh rp (lex e) hsc (by omega)
            obtain ⟨⟨rhs, e1, sh1⟩, hf1x⟩ := Option.isSome_iff_exists.mp hf1
            have hinv1 := (engine_inv f1).2.2.1 _ _ _ _ _ _ hf1x
            have hsc1 : staleCount sh1 ≤ n := le_trans (staleCount_le hinv1.1) hsc
            obtain ⟨f2, hf2⟩ := hA sh1 e1 rator lhs rhs hsc1
            obtain ⟨⟨v2, e2, sh2⟩, hf2x⟩ := Option.isSome_iff_exists.mp hf2
            have hinv2 := (engine_inv f2).2.1 _ _ _ _ _ _ _ _ hf2x
            have hsc2 : staleCount sh2 ≤ n := le_trans (staleCount_le hinv2.1) hsc1
            have hm2 : emeasure e2 ≤ m - 1 := by
              have ha := hinv2.2.1
              have hb := hinv1.2.1
              omega
            obtain ⟨f3, hf3⟩ :=
              (IHm (m - 1) (by omega)).2.1 sh2 prec v2 e2 hsc2 hm2
            obtain ⟨out3, hf3x⟩ := Option.isSome_iff_exists.mp hf3
            refine ⟨max f1 (max f2 f3) + 1, ?_⟩
            have h1 := parse_expr_mono (le_max_left f1 (max f2 f3)) hf1x
            have h2 := apply_mono
              (le_trans (le_max_left f2 f3) (le_max_right f1 (max f2 f3))) hf2x
            have h3 := parse_expr_loop_mono
              (le_trans (le_max_right f2 f3) (le_max_right f1 (max f2 f3))) hf3x
            simp [parse_expr_loop, htok, hprec, hlt, h1, h2, h3]
    have hE : ∀ sh (prec : Nat) e, staleCount sh ≤ n → emeasure e ≤ m →
        ∃ f, (parse_expr f prec e sh).isSome := by
      intro sh prec e hsc hm
      obtain ⟨f1, hf1⟩ := hF sh e hsc hm
      obtain ⟨⟨lhs, e1, sh1⟩, hf1x⟩ := Option.isSome_iff_exists.mp hf1
      have hinv1 := (engine_inv f1).1 _ _ _ _ _ hf1x
      have hsc1 : staleCount sh1 ≤ n := le_trans (staleCount_le hinv1.1) hsc
      have hm1 : emeasure e1 ≤ m := le_trans hinv1.2.1 hm
      obtain ⟨f2, hf2⟩ := hL sh1 prec lhs e1 hsc1 hm1
      obtain ⟨out2, hf2x⟩ := Option.isSome_iff_exists.mp hf2
      refine ⟨max f1 f2 + 1, ?_⟩
      have h1 := parse_factor_mono (le_max_left f1 f2) hf1x
      have h2 := parse_expr_loop_mono (le_max_right f1 f2) hf2x
      simp [parse_expr, h1, h2]
    exact ⟨hF, hL, hE⟩
  -- evaluate
  have hV : ∀ sh e, staleCount sh ≤ n → ∃ f, (evaluate f e sh).isSome := by
    intro sh e hsc
    obtain ⟨f1, hf1⟩ := (hQ (emeasure (lex e))).2.2 sh 0 (lex e) hsc (le_refl _)
    obtain ⟨⟨v1, e1, sh1⟩, hf1x⟩ := Option.isSome_iff_exists.mp hf1
    exact ⟨f1 + 1, by simp [evaluate, hf1x]⟩
  exact ⟨hC, hG, hR, hA, hQ, hV⟩

/-!  ### Decimal literals: `printf "%u"` round-trips through the lexer -/

theorem digitsVal_append (ds : List Char) (d : Char) :
    digitsVal (ds ++ [d]) = 10 * digitsVal ds + (d.toNat - 48) := by
  unfold digitsVal
  rw [List.foldl_append]
  simp

theorem char_digit_isDigit (k : Nat) (h : k < 10) :
    (Char.ofNat (48 + k)).isDigit = true := by
  interval_cases k <;> decide

theorem char_digit_val (k : Nat) (h : k < 10) :
    (Char.ofNat (48 + k)).toNat - 48 = k := by
  interval_cases k <;> decide

theorem isBlankChar_of_isDigit (ch : Char) (h : ch.isDigit = true) :
    isBlankChar ch = false := by
  by_contra hb
  rw [Bool.not_eq_false] at hb
  simp only [isBlankChar, Bool.or_eq_true, beq_iff_eq] at hb
  rcases hb with ((((rfl | rfl) | rfl) | rfl) | rfl) | rfl <;> exact absurd h (by decide)

theorem natReprCore_acc (fuel : Nat) : ∀ n acc,
    natReprCore fuel n acc = natReprCore fuel n [] ++ acc := by
  induction fuel with
  | zero =>
    intro n acc
    simp [natReprCore]
  | succ m ih =>
    intro n acc
    simp only [natReprCore]
    by_cases h : n < 10
    · rw [if_pos h, if_pos h]
      simp
    · rw [if_neg h, if_neg h]
      rw [ih (n / 10) (Char.ofNat (48 + n % 10) :: acc),
          ih (n / 10) [Char.ofNat (48 + n % 10)]]
      simp

theorem natReprCore_irrel : ∀ f g n, n < f → n < g →
    natReprCore f n [] = natReprCore g n [] := by
  intro f
  induction f with
  | zero =>
    intro g n hf
    omega
  | succ m ih =>
    intro g n hf hg
    cases g with
    | zero => omega
    | succ k =>
      simp only [natReprCore]
      by_cases h : n < 10
      · rw [if_pos h, if_pos h]
      · rw [if_neg h, if_neg h]
        rw [natReprCore_acc m, natReprCore_acc k]
        have hn0 : 0 < n := by omega
        have hd1 : n / 10 < m := by
          have := Nat.div_lt_self hn0 (by norm_num : 1 < 10)
          omega
        have hd2 : n / 10 < k := by
          have := Nat.div_lt_self hn0 (by norm_num : 1 < 10)
          omega
        rw [ih k (n / 10) hd1 hd2]

theorem natRepr_small {n : Nat} (h : n < 10) :
    natRepr n = [Char.ofNat (48 + n)] := by
  unfold natRepr
  simp only [natReprCore]
  rw [if_pos h, Nat.mod_eq_of_lt h]

theorem natRepr_step {n : Nat} (h : 10 ≤ n) :
    natRepr n = natRepr (n / 10) ++ [Char.ofNat (48 + n % 10)] := by
  unfold natRepr
  conv_lhs => rw [natReprCore]
  rw [if_neg (by omega)]
  rw [natReprCore_acc n (n / 10)]
  have hn0 : 0 < n := by omega
  have hdlt : n / 10 < n := Nat.div_lt_self hn0 (by norm_num)
  rw [natReprCore_irrel n (n / 10 + 1) (n / 10) (by omega) (by omega)]

theorem natRepr_digits : ∀ n, ∀ ch ∈ natRepr n, ch.isDigit = true := by
  intro n
  induction n using Nat.strong_induction_on with
  | _ n ih =>
    by_cases h : n < 10
    · rw [natRepr_small h]
      intro ch hch
      simp only [List.mem_singleton] at hch
      subst hch
      exact char_digit_isDigit n h
    · rw [natRepr_step (by omega)]
      intro ch hch
      rw [List.mem_append] at hch
      rcases hch with hch | hch
      · exact ih (n / 10) (Nat.div_lt_self (by omega) (by norm_num)) ch hch
      · simp only [List.mem_singleton] at hch
        subst hch
        exact char_digit_isDigit (n % 10) (by omega)

theorem digitsVal_natRepr : ∀ n, digitsVal (natRepr n) = n := by
  intro n
  induction n using Nat.strong_induction_on with
  | _ n ih =>
    by_cases h : n < 10
    · rw [natRepr_small h]
      show digitsVal ([] ++ [Char.ofNat (48 + n)]) = n
      rw [digitsVal_append, char_digit_val n h]
      simp [digitsVal]
    · rw [natRepr_step (by omega), digitsVal_append,
          ih (n / 10) (Nat.div_lt_self (by omega) (by norm_num)),
          char_digit_val (n % 10) (by omega)]
      omega

theorem natRepr_ne_nil (n : Nat) : natRepr n ≠ [] := by
  by_cases h : n < 10
  · rw [natRepr_small h]
    simp
  · rw [natRepr_step (by omega)]
    simp

theorem span_append_all (p : Char → Bool) : ∀ (ds rest : List Char),
    (∀ ch ∈ ds, p ch = true) →
    (match rest with | [] => True | ch :: _ => p ch = false) →
    (ds ++ rest).takeWhile p = ds ∧ (ds ++ rest).dropWhile p = rest := by
  intro ds
  induction ds with
  | nil =>
    intro rest h1 h2
    cases rest with
    | nil => simp
    | cons ch t =>
      simp only at h2
      have hneg : ¬(p ch = true) := by
        rw [h2]
        simp
      constructor
      · simp [List.takeWhile_cons_of_neg hneg]
      · simp [List.dropWhile_cons_of_neg hneg]
  | cons d ds ih =>
    intro rest h1 h2
    have hd : p d = true := h1 d (by simp)
    obtain ⟨ht, hdp⟩ := ih rest (fun ch hch => h1 ch (by simp [hch])) h2
    constructor
    · rw [List.cons_append, List.takeWhile_cons_of_pos hd, ht]
    · rw [List.cons_append, List.dropWhile_cons_of_pos hd, hdp]

theorem skip_blanks_natRepr (n : Nat) (rest : List Char) :
    skip_blanks (natRepr n ++ rest) = natRepr n ++ rest := by
  obtain ⟨hd, tl, hcons⟩ := List.exists_cons_of_ne_nil (natRepr_ne_nil n)
  rw [hcons, List.cons_append]
  unfold skip_blanks
  rw [List.dropWhile_cons_of_neg]
  rw [isBlankChar_of_isDigit hd (natRepr_digits n hd (by rw [hcons]; simp))]
  simp

theorem strtodM_natRepr (n : Nat) (rest : List Char)
    (hrest : rest = [] ∨ ∃ t, rest = ' ' :: t) :
    strtodM (natRepr n ++ rest) = ((n : ℚ), rest) := by
  have hspan := span_append_all Char.isDigit (natRepr n) rest (natRepr_digits n) (by
    rcases hrest with rfl | ⟨t, rfl⟩
    · simp
    · simp only
      decide)
  have hfrac : fracPart rest = ([], rest) := by
    rcases hrest with rfl | ⟨t, rfl⟩
    · rfl
    · rfl
  have hexp : expPart rest = none := by
    rcases hrest with rfl | ⟨t, rfl⟩
    · rfl
    · simp [expPart]
  unfold strtodM
  simp only [hspan.1, hspan.2, hfrac, hexp, digitsVal_natRepr]
  norm_num [digitsVal]

/-!  ### Single steps of the lexer and parser over known shapes -/

theorem lex_eq_num (e : Evaluator) (n : Nat) (rest : List Char)
    (hsb : skip_blanks e.s = natRepr n ++ rest)
    (hrest : rest = [] ∨ ∃ t, rest = ' ' :: t) :
    lex e = { e with token := Token.num, token_value := (n : ℚ), s := rest } := by
  obtain ⟨hd, tl, hcons⟩ := List.exists_cons_of_ne_nil (natRepr_ne_nil n)
  have hdig : hd.isDigit = true := natRepr_digits n hd (by rw [hcons]; simp)
  unfold lex
  rw [hsb, hcons, List.cons_append]
  simp only [hdig, if_pos]
  rw [← List.cons_append, ← hcons, strtodM_natRepr n rest hrest]

theorem lex_eq_op (e : Evaluator) (ch : Char) (rest : List Char)
    (hsb : skip_blanks e.s = ch :: rest)
    (hdig : ch.isDigit = false) (hop : ch ∈ opChars) :
    lex e = { e with token := Token.op ch, s := rest } := by
  unfold lex
  rw [hsb]
  simp [hdig, hop]

theorem lex_eq_end (e : Evaluator) (hsb : skip_blanks e.s = []) :
    lex e = { e with token := Token.endTok, s := [] } := by
  unfold lex
  rw [hsb]

theorem parse_num_factor (g : Nat) (e : Evaluator) (sh : Sheet)
    (h : e.token = Token.num) :
    parse_factor (g + 1) e sh = some (e.token_value, lex e, sh) := by
  rw [parse_factor, h]

theorem parse_minus_factor (g : Nat) (e : Evaluator) (sh : Sheet)
    (v2 : Value) (e1 : Evaluator) (sh1 : Sheet)
    (h : e.token = Token.op '-')
    (hrec : parse_factor g (lex e) sh = some (v2, e1, sh1)) :
    parse_factor (g + 1) e sh = some (-v2, e1, sh1) := by
  rw [parse_factor, h]
  simp only [hrec]

theorem parse_loop_end (g prec : Nat) (lhs : Value) (e : Evaluator) (sh : Sheet)
    (h : e.token = Token.endTok) :
    parse_expr_loop (g + 1) prec lhs e sh = some (lhs, e, sh) := by
  rw [parse_expr_loop, h]

theorem parse_loop_op (g prec : Nat) (lhs : Value) (e : Evaluator) (sh : Sheet)
    (rator : Char) (lp rp : Nat) (rhs v : Value) (e1 e2 : Evaluator) (sh1 sh2 : Sheet)
    (out : Value × Evaluator × Sheet)
    (htok : e.token = Token.op rator) (hprec : opPrec rator = some (lp, rp))
    (hge : ¬lp < prec)
    (hE : parse_expr g rp (lex e) sh = some (rhs, e1, sh1))
    (hA : apply g e1 rator lhs rhs sh1 = some (v, e2, sh2))
    (hL : parse_expr_loop g prec v e2 sh2 = some out) :
    parse_expr_loop (g + 1) prec lhs e sh = some out := by
  rw [parse_expr_loop, htok]
  simp only [hprec, if_neg hge, hE, hA, hL]

theorem parse_expr_step (g prec : Nat) (e : Evaluator) (sh : Sheet)
    (lhs : Value) (e1 : Evaluator) (sh1 : Sheet) (out : Value × Evaluator × Sheet)
    (hF : parse_factor g e sh = some (lhs, e1, sh1))
    (hL : parse_expr_loop g prec lhs e1 sh1 = some out) :
    parse_expr (g + 1) prec e sh = some out := by
  rw [parse_expr]
  simp only [hF, hL]

theorem evaluate_step (g : Nat) (e0 : Evaluator) (sh : Sheet)
    (v : Value) (e1 : Evaluator) (sh1 : Sheet)
    (hE : parse_expr g 0 (lex e0) sh = some (v, e1, sh1))
    (htok : e1.token = Token.endTok) :
    evaluate (g + 1) e0 sh = some (v, e1.plaint, sh1) := by
  rw [evaluate]
  simp only [hE, htok]
  simp

theorem apply_add (g : Nat) (e : Evaluator) (lhs rhs : Value) (sh : Sheet) :
    apply (g + 1) e '+' lhs rhs sh = some (lhs + rhs, e, sh) := by
  simp [apply]

theorem apply_mul (g : Nat) (e : Evaluator) (lhs rhs : Value) (sh : Sheet) :
    apply (g + 1) e '*' lhs rhs sh = some (lhs * rhs, e, sh) := by
  simp [apply]

theorem apply_pow (g : Nat) (e : Evaluator) (lhs rhs : Value) (sh : Sheet) :
    apply (g + 1) e '^' lhs rhs sh = some (powQ lhs rhs, e, sh) := by
  simp [apply]

/-- Running a fresh one-cell grid: `get_value` on cell (0,0) of
`set_text initSheet 0 0 t`, where the formula body `body` evaluates (with
no reference, so on any grid, unchanged) to `v` with plaint `p`. -/
theorem gvResult_of_evaluate (f : Nat) (t body : List Char) (v : Value) (p : Option Plaint)
    (hbody : find_formula t = some body)
    (hev : ∀ sh : Sheet, evaluate (f + 1)
        { row := 0, col := 0, token := Token.endTok, token_value := 0,
          s := body, plaint := none } sh = some (v, p, sh)) :
    gvResult (f + 3) (set_text initSheet 0 0 t) 0 0
      = some (p, if p = none then v else 0) := by
  have hplaint : ((set_text initSheet 0 0 t) 0 0).plaint = some Plaint.stale := by
    simp [set_text, set_text_only, text_updated, updateSheet, initSheet, nrows, ncols]
  have htext : ((set_text initSheet 0 0 t) 0 0).text = t := by
    simp [set_text, set_text_only, text_updated, updateSheet, initSheet, nrows, ncols]
  have hstep3 : f + 3 = (f + 2) + 1 := rfl
  have hstep2 : f + 2 = (f + 1) + 1 := rfl
  unfold gvResult
  rw [hstep3, get_value]
  rw [if_neg (by decide)]
  simp only [Int.toNat_zero, hplaint, if_true]
  rw [hstep2, recalculate]
  simp only [htext, hbody, hev]
  simp [updateSheet]

theorem skip_blanks_cons_blank (ch : Char) (l : List Char) (h : isBlankChar ch = true) :
    skip_blanks (ch :: l) = skip_blanks l := by
  unfold skip_blanks
  rw [List.dropWhile_cons_of_pos h]

theorem skip_blanks_cons_not (ch : Char) (l : List Char) (h : isBlankChar ch = false) :
    skip_blanks (ch :: l) = ch :: l := by
  unfold skip_blanks
  rw [List.dropWhile_cons_of_neg (by simp [h])]

theorem powQ_natCast (x : ℚ) (k : Nat) : powQ x (k : ℚ) = x ^ k := by
  unfold powQ
  rw [if_pos (by simp)]
  simp [zpow_natCast]

/-- `= a + b * c` evaluates, on any grid (no `@`), to `a + (b * c)`. -/
theorem eval_addMul (f a b c : Nat) (sh : Sheet) :
    evaluate (f + 7 + 1)
      { row := 0, col := 0, token := Token.endTok, token_value := 0,
        s := ' ' :: (natRepr a ++ ' ' :: '+' :: ' ' ::
          (natRepr b ++ ' ' :: '*' :: ' ' :: natRepr c)), plaint := none } sh
      = some ((a : ℚ) + (b : ℚ) * (c : ℚ), none, sh) := by
  set R2 : List Char := ' ' :: '*' :: ' ' :: natRepr c with hR2
  set R1 : List Char := ' ' :: '+' :: ' ' :: (natRepr b ++ R2) with hR1
  set e0 : Evaluator :=
    { row := 0, col := 0, token := Token.endTok, token_value := 0,
      s := ' ' :: (natRepr a ++ R1), plaint := none } with he0
  set e1 : Evaluator :=
    { row := 0, col := 0, token := Token.num, token_value := (a : ℚ),
      s := R1, plaint := none } with he1
  set e2 : Evaluator :=
    { row := 0, col := 0, token := Token.op '+', token_value := (a : ℚ),
      s := ' ' :: (natRepr b ++ R2), plaint := none } with he2
  set e3 : Evaluator :=
    { row := 0, col := 0, token := Token.num, token_value := (b : ℚ),
      s := R2, plaint := none } with he3
  set e4 : Evaluator :=
    { row := 0, col := 0, token := Token.op '*', token_value := (b : ℚ),
      s := ' ' :: natRepr c, plaint := none } with he4
  set e5 : Evaluator :=
    { row := 0, col := 0, token := Token.num, token_value := (c : ℚ),
      s := [], plaint := none } with he5
  set e6 : Evaluator :=
    { row := 0, col := 0, token := Token.endTok, token_value := (c : ℚ),
      s := [], plaint := none } with he6
  have h1 : lex e0 = e1 := by
    refine lex_eq_num e0 a R1 ?_ (Or.inr ⟨_, hR1⟩)
    show skip_blanks (' ' :: (natRepr a ++ R1)) = natRepr a ++ R1
    rw [skip_blanks_cons_blank _ _ (by decide), skip_blanks_natRepr]
  have h2 : lex e1 = e2 := by
    refine lex_eq_op e1 '+' (' ' :: (natRepr b ++ R2)) ?_ (by decide) (by decide)
    show skip_blanks R1 = '+' :: ' ' :: (natRepr b ++ R2)
    rw [hR1, skip_blanks_cons_blank _ _ (by decide), skip_blanks_cons_not _ _ (by decide)]
  have h3 : lex e2 = e3 := by
    refine lex_eq_num e2 b R2 ?_ (Or.inr ⟨_, hR2⟩)
    show skip_blanks (' ' :: (natRepr b ++ R2)) = natRepr b ++ R2
    rw [skip_blanks_cons_blank _ _ (by decide), skip_blanks_natRepr]
  have h4 : lex e3 = e4 := by
    refine lex_eq_op e3 '*' (' ' :: natRepr c) ?_ (by decide) (by decide)
    show skip_blanks R2 = '*' :: ' ' :: natRepr c
    rw [hR2, skip_blanks_cons_blank _ _ (by decide), skip_blanks_cons_not _ _ (by decide)]
  have h5 : lex e4 = e5 := by
    refine lex_eq_num e4 c [] ?_ (Or.inl rfl)
    show skip_blanks (' ' :: natRepr c) = natRepr c ++ []
    calc skip_blanks (' ' :: natRepr c) = skip_blanks (natRepr c) :=
          skip_blanks_cons_blank _ _ (by decide)
      _ = skip_blanks (natRepr c ++ []) := by rw [List.append_nil]
      _ = natRepr c ++ [] := skip_blanks_natRepr c []
  have h6 : lex e5 = e6 := lex_eq_end e5 rfl
  -- innermost: the literal c and the end of input
  have hc_fac : parse_factor (f + 1 + 1) e5 sh = some ((c : ℚ), e6, sh) := by
    rw [parse_num_factor (f + 1) e5 sh rfl, h6]
  have hc_loop : parse_expr_loop (f + 1 + 1) 4 ((c : ℚ)) e6 sh = some ((c : ℚ), e6, sh) :=
    parse_loop_end (f + 1) 4 _ e6 sh rfl
  have hc_expr : parse_expr (f + 1 + 1 + 1) 4 e5 sh = some ((c : ℚ), e6, sh) :=
    parse_expr_step (f + 1 + 1) 4 e5 sh _ _ _ _ hc_fac hc_loop
  -- b * c
  have happ_mul : apply (f + 2 + 1) e6 '*' (b : ℚ) (c : ℚ) sh
      = some ((b : ℚ) * (c : ℚ), e6, sh) := apply_mul (f + 2) e6 _ _ sh
  have hbc_loop : parse_expr_loop (f + 2 + 1) 2 ((b : ℚ) * (c : ℚ)) e6 sh
      = some ((b : ℚ) * (c : ℚ), e6, sh) := parse_loop_end (f + 2) 2 _ e6 sh rfl
  have hb_loop : parse_expr_loop (f + 3 + 1) 2 ((b : ℚ)) e4 sh
      = some ((b : ℚ) * (c : ℚ), e6, sh) := by
    refine parse_loop_op (f + 3) 2 _ e4 sh '*' 3 4 ((c : ℚ)) ((b : ℚ) * (c : ℚ))
      e6 e6 sh sh _ rfl rfl (by omega) ?_ happ_mul hbc_loop
    rw [h5]
    exact hc_expr
  have hb_fac : parse_factor (f + 3 + 1) e3 sh = some ((b : ℚ), e4, sh) := by
    rw [parse_num_factor (f + 3) e3 sh rfl, h4]
  have hb_expr : parse_expr (f + 3 + 1 + 1) 2 e3 sh = some ((b : ℚ) * (c : ℚ), e6, sh) :=
    parse_expr_step (f + 3 + 1) 2 e3 sh _ _ _ _ hb_fac hb_loop
  -- a + (b * c)
  have happ_add : apply (f + 4 + 1) e6 '+' (a : ℚ) ((b : ℚ) * (c : ℚ)) sh
      = some ((a : ℚ) + (b : ℚ) * (c : ℚ), e6, sh) := apply_add (f + 4) e6 _ _ sh
  have ha_loopend : parse_expr_loop (f + 4 + 1) 0 ((a : ℚ) + (b : ℚ) * (c : ℚ)) e6 sh
      = some ((a : ℚ) + (b : ℚ) * (c : ℚ), e6, sh) := parse_loop_end (f + 4) 0 _ e6 sh rfl
  have ha_loop : parse_expr_loop (f + 5 + 1) 0 ((a : ℚ)) e2 sh
      = some ((a : ℚ) + (b : ℚ) * (c : ℚ), e6, sh) := by
    refine parse_loop_op (f + 5) 0 _ e2 sh '+' 1 2 ((b : ℚ) * (c : ℚ))
      ((a : ℚ) + (b : ℚ) * (c : ℚ)) e6 e6 sh sh _ rfl rfl (by omega) ?_ happ_add ha_loopend
    rw [h3]
    exact hb_expr
  have ha_fac : parse_factor (f + 5 + 1) e1 sh = some ((a : ℚ), e2, sh) := by
    rw [parse_num_factor (f + 5) e1 sh rfl, h2]
  have ha_expr : parse_expr (f + 5 + 1 + 1) 0 e1 sh
      = some ((a : ℚ) + (b : ℚ) * (c : ℚ), e6, sh) :=
    parse_expr_step (f + 5 + 1) 0 e1 sh _ _ _ _ ha_fac ha_loop
  have hE0 : parse_expr (f + 7) 0 (lex e0) sh
      = some ((a : ℚ) + (b : ℚ) * (c : ℚ), e6, sh) := by
    rw [h1]
    exact ha_expr
  exact evaluate_step (f + 7) e0 sh _ e6 sh hE0 rfl

/-- `= a ^ b ^ c` evaluates, on any grid, to `a ^ (b ^ c)`:
exponentiation groups to the right. -/
theorem eval_powPow (f a b c : Nat) (sh : Sheet) :
    evaluate (f + 7 + 1)
      { row := 0, col := 0, token := Token.endTok, token_value := 0,
        s := ' ' :: (natRepr a ++ ' ' :: '^' :: ' ' ::
          (natRepr b ++ ' ' :: '^' :: ' ' :: natRepr c)), plaint := none } sh
      = some ((a : ℚ) ^ (b ^ c), none, sh) := by
  set R2 : List Char := ' ' :: '^' :: ' ' :: natRepr c with hR2
  set R1 : List Char := ' ' :: '^' :: ' ' :: (natRepr b ++ R2) with hR1
  set e0 : Evaluator :=
    { row := 0, col := 0, token := Token.endTok, token_value := 0,
      s := ' ' :: (natRepr a ++ R1), plaint := none } with he0
  set e1 : Evaluator :=
    { row := 0, col := 0, token := Token.num, token_value := (a : ℚ),
      s := R1, plaint := none } with he1
  set e2 : Evaluator :=
    { row := 0, col := 0, token := Token.op '^', token_value := (a : ℚ),
      s := ' ' :: (natRepr b ++ R2), plaint := none } with he2
  set e3 : Evaluator :=
    { row := 0, col := 0, token := Token.num, token_value := (b : ℚ),
      s := R2, plaint := none } with he3
  set e4 : Evaluator :=
    { row := 0, col := 0, token := Token.op '^', token_value := (b : ℚ),
      s := ' ' :: natRepr c, plaint := none } with he4
  set e5 : Evaluator :=
    { row := 0, col := 0, token := Token.num, token_value := (c : ℚ),
      s := [], plaint := none } with he5
  set e6 : Evaluator :=
    { row := 0, col := 0, token := Token.endTok, token_value := (c : ℚ),
      s := [], plaint := none } with he6
  have h1 : lex e0 = e1 := by
    refine lex_eq_num e0 a R1 ?_ (Or.inr ⟨_, hR1⟩)
    show skip_blanks (' ' :: (natRepr a ++ R1)) = natRepr a ++ R1
    rw [skip_blanks_cons_blank _ _ (by decide), skip_blanks_natRepr]
  have h2 : lex e1 = e2 := by
    refine lex_eq_op e1 '^' (' ' :: (natRepr b ++ R2)) ?_ (by decide) (by decide)
    show skip_blanks R1 = '^' :: ' ' :: (natRepr b ++ R2)
    rw [hR1, skip_blanks_cons_blank _ _ (by decide), skip_blanks_cons_not _ _ (by decide)]
  have h3 : lex e2 = e3 := by
    refine lex_eq_num e2 b R2 ?_ (Or.inr ⟨_, hR2⟩)
    show skip_blanks (' ' :: (natRepr b ++ R2)) = natRepr b ++ R2
    rw [skip_blanks_cons_blank _ _ (by decide), skip_blanks_natRepr]
  have h4 : lex e3 = e4 := by
    refine lex_eq_op e3 '^' (' ' :: natRepr c) ?_ (by decide) (by decide)
    show skip_blanks R2 = '^' :: ' ' :: natRepr c
    rw [hR2, skip_blanks_cons_blank _ _ (by decide), skip_blanks_cons_not _ _ (by decide)]
  have h5 : lex e4 = e5 := by
    refine lex_eq_num e4 c [] ?_ (Or.inl rfl)
    show skip_blanks (' ' :: natRepr c) = natRepr c ++ []
    calc skip_blanks (' ' :: natRepr c) = skip_blanks (natRepr c) :=
          skip_blanks_cons_blank _ _ (by decide)
      _ = skip_blanks (natRepr c ++ []) := by rw [List.append_nil]
      _ = natRepr c ++ [] := skip_blanks_natRepr c []
  have h6 : lex e5 = e6 := lex_eq_end e5 rfl
  have hc_fac : parse_factor (f + 1 + 1) e5 sh = some ((c : ℚ), e6, sh) := by
    rw [parse_num_factor (f + 1) e5 sh rfl, h6]
  have hc_loop : parse_expr_loop (f + 1 + 1) 5 ((c : ℚ)) e6 sh = some ((c : ℚ), e6, sh) :=
    parse_loop_end (f + 1) 5 _ e6 sh rfl
  have hc_expr : parse_expr (f + 1 + 1 + 1) 5 e5 sh = some ((c : ℚ), e6, sh) :=
    parse_expr_step (f + 1 + 1) 5 e5 sh _ _ _ _ hc_fac hc_loop
  -- b ^ c (the inner, right-hand exponentiation)
  have happ_bc : apply (f + 2 + 1) e6 '^' (b : ℚ) (c : ℚ) sh
      = some (powQ (b : ℚ) (c : ℚ), e6, sh) := apply_pow (f + 2) e6 _ _ sh
  have hbc_loop : parse_expr_loop (f + 2 + 1) 5 (powQ (b : ℚ) (c : ℚ)) e6 sh
      = some (powQ (b : ℚ) (c : ℚ), e6, sh) := parse_loop_end (f + 2) 5 _ e6 sh rfl
  have hb_loop : parse_expr_loop (f + 3 + 1) 5 ((b : ℚ)) e4 sh
      = some (powQ (b : ℚ) (c : ℚ), e6, sh) := by
    refine parse_loop_op (f + 3) 5 _ e4 sh '^' 5 5 ((c : ℚ)) (powQ (b : ℚ) (c : ℚ))
      e6 e6 sh sh _ rfl rfl (by omega) ?_ happ_bc hbc_loop
    rw [h5]
    exact hc_expr
  have hb_fac : parse_factor (f + 3 + 1) e3 sh = some ((b : ℚ), e4, sh) := by
    rw [parse_num_factor (f + 3) e3 sh rfl, h4]
  have hb_expr : parse_expr (f + 3 + 1 + 1) 5 e3 sh
      = some (powQ (b : ℚ) (c : ℚ), e6, sh) :=
    parse_expr_step (f + 3 + 1) 5 e3 sh _ _ _ _ hb_fac hb_loop
  -- a ^ (b ^ c)
  have happ_a : apply (f + 4 + 1) e6 '^' (a : ℚ) (powQ (b : ℚ) (c : ℚ)) sh
      = some (powQ (a : ℚ) (powQ (b : ℚ) (c : ℚ)), e6, sh) := apply_pow (f + 4) e6 _ _ sh
  have ha_loopend : parse_expr_loop (f + 4 + 1) 0 (powQ (a : ℚ) (powQ (b : ℚ) (c : ℚ))) e6 sh
      = some (powQ (a : ℚ) (powQ (b : ℚ) (c : ℚ)), e6, sh) :=
    parse_loop_end (f + 4) 0 _ e6 sh rfl
  have ha_loop : parse_expr_loop (f + 5 + 1) 0 ((a : ℚ)) e2 sh
      = some (powQ (a : ℚ) (powQ (b : ℚ) (c : ℚ)), e6, sh) := by
    refine parse_loop_op (f + 5) 0 _ e2 sh '^' 5 5 (powQ (b : ℚ) (c : ℚ))
      (powQ (a : ℚ) (powQ (b : ℚ) (c : ℚ))) e6 e6 sh sh _ rfl rfl (by omega)
      ?_ happ_a ha_loopend
    rw [h3]
    exact hb_expr
  have ha_fac : parse_factor (f + 5 + 1) e1 sh = some ((a : ℚ), e2, sh) := by
    rw [parse_num_factor (f + 5) e1 sh rfl, h2]
  have ha_expr : parse_expr (f + 5 + 1 + 1) 0 e1 sh
      = some (powQ (a : ℚ) (powQ (b : ℚ) (c : ℚ)), e6, sh) :=
    parse_expr_step (f + 5 + 1) 0 e1 sh _ _ _ _ ha_fac ha_loop
  have hE0 : parse_expr (f + 7) 0 (lex e0) sh
      = some (powQ (a : ℚ) (powQ (b : ℚ) (c : ℚ)), e6, sh) := by
    rw [h1]
    exact ha_expr
  have hfin := evaluate_step (f + 7) e0 sh _ e6 sh hE0 rfl
  have hval : powQ (a : ℚ) (powQ (b : ℚ) (c : ℚ)) = (a : ℚ) ^ (b ^ c) := by
    rw [powQ_natCast, show ((b : ℚ)) ^ c = ((b ^ c : Nat) : ℚ) by push_cast; ring,
      powQ_natCast]
  rw [hval] at hfin
  exact hfin

/-- `= -a ^ b` evaluates, on any grid, to `(-a) ^ b`: unary minus binds
at factor level, tighter than the exponentiation operator. -/
theorem eval_negPow (f a b : Nat) (sh : Sheet) :
    evaluate (f + 6 + 1)
      { row := 0, col := 0, token := Token.endTok, token_value := 0,
        s := ' ' :: '-' :: (natRepr a ++ ' ' :: '^' :: ' ' :: natRepr b),
        plaint := none } sh
      = some ((-(a : ℚ)) ^ b, none, sh) := by
  set R1 : List Char := ' ' :: '^' :: ' ' :: natRepr b with hR1
  set e0 : Evaluator :=
    { row := 0, col := 0, token := Token.endTok, token_value := 0,
      s := ' ' :: '-' :: (natRepr a ++ R1), plaint := none } with he0
  set e1 : Evaluator :=
    { row := 0, col := 0, token := Token.op '-', token_value := 0,
      s := natRepr a ++ R1, plaint := none } with he1
  set e2 : Evaluator :=
    { row := 0, col := 0, token := Token.num, token_value := (a : ℚ),
      s := R1, plaint := none } with he2
  set e3 : Evaluator :=
    { row := 0, col := 0, token := Token.op '^', token_value := (a : ℚ),
      s := ' ' :: natRepr b, plaint := none } with he3
  set e4 : Evaluator :=
    { row := 0, col := 0, token := Token.num, token_value := (b : ℚ),
      s := [], plaint := none } with he4
  set e5 : Evaluator :=
    { row := 0, col := 0, token := Token.endTok, token_value := (b : ℚ),
      s := [], plaint := none } with he5
  have h1 : lex e0 = e1 := by
    refine lex_eq_op e0 '-' (natRepr a ++ R1) ?_ (by decide) (by decide)
    show skip_blanks (' ' :: '-' :: (natRepr a ++ R1)) = '-' :: (natRepr a ++ R1)
    rw [skip_blanks_cons_blank _ _ (by decide), skip_blanks_cons_not _ _ (by decide)]
  have h2 : lex e1 = e2 := by
    refine lex_eq_num e1 a R1 ?_ (Or.inr ⟨_, hR1⟩)
    show skip_blanks (natRepr a ++ R1) = natRepr a ++ R1
    exact skip_blanks_natRepr a R1
  have h3 : lex e2 = e3 := by
    refine lex_eq_op e2 '^' (' ' :: natRepr b) ?_ (by decide) (by decide)
    show skip_blanks R1 = '^' :: ' ' :: natRepr b
    rw [hR1, skip_blanks_cons_blank _ _ (by decide), skip_blanks_cons_not _ _ (by decide)]
  have h4 : lex e3 = e4 := by
    refine lex_eq_num e3 b [] ?_ (Or.inl rfl)
    show skip_blanks (' ' :: natRepr b) = natRepr b ++ []
    calc skip_blanks (' ' :: natRepr b) = skip_blanks (natRepr b) :=
          skip_blanks_cons_blank _ _ (by decide)
      _ = skip_blanks (natRepr b ++ []) := by rw [List.append_nil]
      _ = natRepr b ++ [] := skip_blanks_natRepr b []
  have h5 : lex e4 = e5 := lex_eq_end e4 rfl
  -- the factor: unary minus applied to the literal a
  have ha_inner : parse_factor (f + 3 + 1) (lex e1) sh = some ((a : ℚ), e3, sh) := by
    rw [h2, parse_num_factor (f + 3) e2 sh rfl, h3]
  have ha_fac : parse_factor (f + 4 + 1) e1 sh = some (-(a : ℚ), e3, sh) :=
    parse_minus_factor (f + 4) e1 sh _ e3 sh rfl ha_inner
  -- the literal b and the end of input
  have hb_fac : parse_factor (f + 2 + 1) e4 sh = some ((b : ℚ), e5, sh) := by
    rw [parse_num_factor (f + 2) e4 sh rfl, h5]
  have hb_loop : parse_expr_loop (f + 2 + 1) 5 ((b : ℚ)) e5 sh = some ((b : ℚ), e5, sh) :=
    parse_loop_end (f + 2) 5 _ e5 sh rfl
  have hb_expr : parse_expr (f + 2 + 1 + 1) 5 e4 sh = some ((b : ℚ), e5, sh) :=
    parse_expr_step (f + 2 + 1) 5 e4 sh _ _ _ _ hb_fac hb_loop
  -- (-a) ^ b
  have happ : apply (f + 3 + 1) e5 '^' (-(a : ℚ)) (b : ℚ) sh
      = some (powQ (-(a : ℚ)) (b : ℚ), e5, sh) := apply_pow (f + 3) e5 _ _ sh
  have hloopend : parse_expr_loop (f + 3 + 1) 0 (powQ (-(a : ℚ)) (b : ℚ)) e5 sh
      = some (powQ (-(a : ℚ)) (b : ℚ), e5, sh) := parse_loop_end (f + 3) 0 _ e5 sh rfl
  have hloop : parse_expr_loop (f + 4 + 1) 0 (-(a : ℚ)) e3 sh
      = some (powQ (-(a : ℚ)) (b : ℚ), e5, sh) := by
    refine parse_loop_op (f + 4) 0 _ e3 sh '^' 5 5 ((b : ℚ)) (powQ (-(a : ℚ)) (b : ℚ))
      e5 e5 sh sh _ rfl rfl (by omega) ?_ happ hloopend
    rw [h4]
    exact hb_expr
  have ha_expr : parse_expr (f + 4 + 1 + 1) 0 e1 sh
      = some (powQ (-(a : ℚ)) (b : ℚ), e5, sh) :=
    parse_expr_step (f + 4 + 1) 0 e1 sh _ _ _ _ ha_fac hloop
  have hE0 : parse_expr (f + 6) 0 (lex e0) sh
      = some (powQ (-(a : ℚ)) (b : ℚ), e5, sh) := by
    rw [h1]
    exact ha_expr
  have hfin := evaluate_step (f + 6) e0 sh _ e5 sh hE0 rfl
  rw [powQ_natCast] at hfin
  exact hfin

/-- C4.  Operator precedence and associativity: for all decimal literals
`a`, `b`, `c`, the formula `= a + b * c` yields `a + (b * c)`; `= a ^ b ^ c`
yields `a ^ (b ^ c)` (exponentiation is right-associative); and unary minus
binds at factor level, tighter than `^`, so `= -a ^ b` yields `(-a) ^ b`;
in particular `= 2 + 3 * 4` yields 14, `= 2 ^ 3 ^ 2` yields 512 and
`= -2 ^ 2` yields 4. -/
theorem operator_precedence (f a b c : Nat) :
    gvResult (f + 10) (set_text initSheet 0 0 (addMulFormula a b c)) 0 0
        = some (none, (a : ℚ) + (b : ℚ) * (c : ℚ))
    ∧ gvResult (f + 10) (set_text initSheet 0 0 (powPowFormula a b c)) 0 0
        = some (none, (a : ℚ) ^ (b ^ c))
    ∧ gvResult (f + 10) (set_text initSheet 0 0 (negPowFormula a b)) 0 0
        = some (none, (-(a : ℚ)) ^ b)
    ∧ gvResult 30 arithSheet 0 0 = some (none, 14)
    ∧ gvResult 30 (set_text initSheet 0 0 "= 2 ^ 3 ^ 2".toList) 0 0 = some (none, 512)
    ∧ gvResult 30 (set_text initSheet 0 0 "= -2 ^ 2".toList) 0 0 = some (none, 4) := by
  refine ⟨?_, ?_, ?_, ?_, ?_, ?_⟩
  · have hbody : find_formula (addMulFormula a b c)
        = some (' ' :: (natRepr a ++ ' ' :: '+' :: ' ' ::
            (natRepr b ++ ' ' :: '*' :: ' ' :: natRepr c))) := by
      unfold addMulFormula find_formula
      rw [skip_blanks_cons_not _ _ (by decide)]
      rfl
    have h := gvResult_of_evaluate (f + 7) _ _ _ none hbody
      (fun sh => eval_addMul f a b c sh)
    simpa using h
  · have hbody : find_formula (powPowFormula a b c)
        = some (' ' :: (natRepr a ++ ' ' :: '^' :: ' ' ::
            (natRepr b ++ ' ' :: '^' :: ' ' :: natRepr c))) := by
      unfold powPowFormula find_formula
      rw [skip_blanks_cons_not _ _ (by decide)]
      rfl
    have h := gvResult_of_evaluate (f + 7) _ _ _ none hbody
      (fun sh => eval_powPow f a b c sh)
    simpa using h
  · have hbody : find_formula (negPowFormula a b)
        = some (' ' :: '-' :: (natRepr a ++ ' ' :: '^' :: ' ' :: natRepr b)) := by
      unfold negPowFormula find_formula
      rw [skip_blanks_cons_not _ _ (by decide)]
      rfl
    have h := gvResult_of_evaluate (f + 7) _ _ _ none hbody
      (fun sh => eval_negPow (f + 1) a b sh)
    simpa using h
  · with_unfolding_all decide
  · with_unfolding_all decide
  · with_unfolding_all decide

/-- C8.  Termination: for every grid state and every (possibly
out-of-range) cell address there is a fuel on which `get_value` completes,
and any larger fuel returns the identical result — the fuel embedding's
statement that the C recursion terminates: the Computing mark strictly
shrinks the stale set before any re-entry (at most `nrows * ncols` cells
to recompute) and each per-cell parse consumes its finite text. -/
theorem get_value_terminates (sh : Sheet) (r c : Int) :
    ∃ f, (get_value f r c sh).isSome
      ∧ ∀ g, f ≤ g → get_value g r c sh = get_value f r c sh := by
  obtain ⟨f, hf⟩ := (engine_ex (staleCount sh)).2.1 sh r c (le_refl _)
  obtain ⟨out, hout⟩ := Option.isSome_iff_exists.mp hf
  refine ⟨f, hf, fun g hg => ?_⟩
  rw [get_value_mono hg hout, hout]

/-- C6.  No-edit stability: whatever one `get_value` call returned — the
plaint, the value, and the grid it left — an immediately repeated call on
that grid (no edit in between, any fuel) returns exactly the same triple
and changes nothing. -/
theorem get_value_stable (f g : Nat) (sh : Sheet) (r c : Int)
    (p : Option Plaint) (v : Value) (sh1 : Sheet)
    (h : get_value f r c sh = some (p, v, sh1)) :
    get_value (g + 1) r c sh1 = some (p, v, sh1) := by
  obtain ⟨_, hpns, hoor, hin⟩ := (engine_inv f).2.2.2.2.2.2.2 _ _ _ _ _ _ h
  by_cases hx : (r < 0 ∨ (nrows : Int) ≤ r ∨ c < 0 ∨ (ncols : Int) ≤ c)
  · obtain ⟨rfl, rfl, rfl⟩ := hoor hx
    simp [get_value, hx]
  · obtain ⟨hcell, hv⟩ := hin hx
    have hnst : (sh1 r.toNat c.toNat).plaint ≠ some Plaint.stale := by
      rw [hcell]
      exact hpns
    simp only [get_value]
    rw [if_neg hx, if_neg hnst]
    simp only [Option.some.injEq, Prod.mk.injEq]
    rw [hcell]
    exact ⟨rfl, hv.symm, trivial⟩

/-- C6 witness: evaluating `= 2 + 3 * 4` twice with no edit in between. -/
theorem get_value_stable_witness :
    get_value (0 + 1) 0 0 arithDoneSheet = some (none, 14, arithDoneSheet) :=
  get_value_stable 30 0 arithSheet 0 0 none 14 arithDoneSheet
    (by with_unfolding_all exact rfl)

/-- C5.  Edit invalidation: `set_text` replaces the one cell's text with
the given string and leaves every in-grid cell stale, while
`set_text_only` (the spec's `set_text_batch`) changes exactly the one
cell's text and no cell's status; the deferred invalidation
`text_updated` (the spec's `invalidate_all`) marks every in-grid cell
stale. -/
theorem edit_invalidation (sh : Sheet) (r c : Nat) (s : List Char) :
    ((set_text sh r c s) r c).text = s
    ∧ (∀ i j, i < nrows → j < ncols →
        ((set_text sh r c s) i j).plaint = some Plaint.stale)
    ∧ ((set_text_only sh r c s) r c).text = s
    ∧ (∀ i j, ¬(i = r ∧ j = c) → set_text_only sh r c s i j = sh i j)
    ∧ (∀ i j, (set_text_only sh r c s i j).plaint = (sh i j).plaint)
    ∧ (∀ i j, i < nrows → j < ncols →
        (text_updated sh i j).plaint = some Plaint.stale) := by
  refine ⟨?_, ?_, ?_, ?_, ?_, ?_⟩
  · simp only [set_text, text_updated, set_text_only, updateSheet]
    split <;> simp
  · intro i j hi hj
    simp [set_text, text_updated, hi, hj]
  · simp [set_text_only, updateSheet]
  · intro i j hij
    simp [set_text_only, updateSheet, hij]
  · intro i j
    by_cases hij : i = r ∧ j = c <;> simp [set_text_only, updateSheet, hij]
  · intro i j hi hj
    simp [text_updated, hi, hj]

/-- C7.  Division and remainder: `/` and `%` latch "Divide by 0" exactly
when the right operand is 0 (returning the value 0), and otherwise return
the exact quotient, respectively the truncated remainder `fmodQ` (the
model of IEEE `fmod`), raising no error. -/
theorem div_mod_zero_divide (fuel : Nat) (e : Evaluator) (sh : Sheet) (lhs rhs : Value)
    (h : e.plaint = none) :
    (rhs = 0 →
      apply (fuel + 1) e '/' lhs rhs sh
          = some (0, { e with plaint := some Plaint.divByZero, s := [] }, sh)
        ∧ apply (fuel + 1) e '%' lhs rhs sh
          = some (0, { e with plaint := some Plaint.divByZero, s := [] }, sh))
    ∧ (rhs ≠ 0 →
      apply (fuel + 1) e '/' lhs rhs sh = some (lhs / rhs, e, sh)
        ∧ apply (fuel + 1) e '%' lhs rhs sh = some (fmodQ lhs rhs, e, sh)) := by
  constructor
  · intro h0
    constructor <;> simp [apply, h0, zero_divide, fail, h]
  · intro h0
    constructor <;> simp [apply, h0]

/-- C7 witness: the division `1 / 0` at a concrete evaluator state. -/
theorem div_mod_zero_divide_witness :
    ((0 : Value) = 0 →
      apply 1 e0 '/' 1 0 initSheet
          = some (0, { e0 with plaint := some Plaint.divByZero, s := [] }, initSheet)
        ∧ apply 1 e0 '%' 1 0 initSheet
          = some (0, { e0 with plaint := some Plaint.divByZero, s := [] }, initSheet))
    ∧ ((0 : Value) ≠ 0 →
      apply 1 e0 '/' 1 0 initSheet = some ((1 : Value) / 0, e0, initSheet)
        ∧ apply 1 e0 '%' 1 0 initSheet = some (fmodQ 1 0, e0, initSheet)) :=
  div_mod_zero_divide 0 e0 initSheet 1 0 rfl

/-- C10.  Exponentiation never fails: `apply` on `^` returns `powQ` of the
operands with the evaluator state untouched (no error latch on any
operand pair), and concretely the formula `= ( 0 - 2 ) ^ 0.5` — a
negative base with a fractional exponent, NaN in IEEE — computes to an Ok
status carrying the modelled `pow` result rather than any error kind. -/
theorem pow_never_fails (fuel : Nat) (e : Evaluator) (sh : Sheet) (lhs rhs : Value) :
    apply (fuel + 1) e '^' lhs rhs sh = some (powQ lhs rhs, e, sh)
    ∧ gvResult 30 powNaNSheet 0 0 = some (none, powQ (-2) ((1 : ℚ) / 2)) := by
  constructor
  · simp [apply]
  · with_unfolding_all decide

/-- C1.  Cycle detection: a `get_value` that reaches a cell whose status
is the provisional Computing marker (the interned `cycle` plaint) returns
`Err(Cycle)` and leaves the grid untouched; and on the two-cell cycle
`(0,0) = "= 0 @ 1"`, `(0,1) = "= 0 @ 0"` both cells' `get_value` returns
`Err(Cycle)`. -/
theorem cycle_reentry_yields_cycle (fuel : Nat) (sh : Sheet) (r c : Int)
    (hr0 : 0 ≤ r) (hr : r < (nrows : Int)) (hc0 : 0 ≤ c) (hc : c < (ncols : Int))
    (h : (sh r.toNat c.toNat).plaint = some Plaint.cycle) :
    get_value (fuel + 1) r c sh = some (some Plaint.cycle, 0, sh)
    ∧ gvPlaint 30 cycleSheet 0 0 = some (some Plaint.cycle)
    ∧ gvPlaint 30 cycleSheet 0 1 = some (some Plaint.cycle) := by
  refine ⟨?_, ?_, ?_⟩
  · have hor : ¬(r < 0 ∨ (nrows : Int) ≤ r ∨ c < 0 ∨ (ncols : Int) ≤ c) := by
      push_neg
      exact ⟨by omega, by omega, by omega, by omega⟩
    simp [get_value, hor, h]
  · with_unfolding_all decide
  · with_unfolding_all decide

/-- C1 witness: re-entering cell (0,0) while it carries the Computing
marker yields `Err(Cycle)`. -/
theorem cycle_reentry_yields_cycle_witness :
    get_value 1 0 0 computingSheet = some (some Plaint.cycle, 0, computingSheet)
    ∧ gvPlaint 30 cycleSheet 0 0 = some (some Plaint.cycle)
    ∧ gvPlaint 30 cycleSheet 0 1 = some (some Plaint.cycle) :=
  cycle_reentry_yields_cycle 0 computingSheet 0 0 (by decide) (by decide) (by decide)
    (by decide) (by with_unfolding_all decide)

/-- C2 counterexample: with `(0,0) = "= 99 @ 0"` (row 99 out of the
20-row grid), `get_value (0,0)` returns the generic empty-message
upstream plaint, not `OutOfRange` as the claim states. -/
theorem oor_reference_masked_cex :
    gvPlaint 30 oorSheet 0 0 = some (some Plaint.upstream)
    ∧ Plaint.upstream ≠ Plaint.outOfRange
    ∧ plaintMessage Plaint.upstream = "" := by
  refine ⟨?_, by decide, by decide⟩
  with_unfolding_all decide

/-- C2 amended.  `@` validation: a non-integer operand latches
`NonIntegerCoord`; integer operands outside the grid make the inner
`get_value` fail with `OutOfRange`, which `refer` masks to the generic
empty-message upstream plaint before latching; in-range operands return
the referred cell's value obtained through the recompute engine. -/
theorem refer_validation_amended (fuel : Nat) (e : Evaluator) (sh : Sheet) (r c : Value)
    (h : e.plaint = none) :
    (r ≠ (ratTrunc r : ℚ) ∨ c ≠ (ratTrunc c : ℚ) →
      refer (fuel + 1) e r c sh
        = some (0, { e with plaint := some Plaint.nonIntegerCoord, s := [] }, sh))
    ∧ (r = (ratTrunc r : ℚ) → c = (ratTrunc c : ℚ) →
      (ratTrunc r < 0 ∨ (nrows : Int) ≤ ratTrunc r
          ∨ ratTrunc c < 0 ∨ (ncols : Int) ≤ ratTrunc c) →
      refer (fuel + 2) e r c sh
        = some (0, { e with plaint := some Plaint.upstream, s := [] }, sh))
    ∧ (∀ v sh1, r = (ratTrunc r : ℚ) → c = (ratTrunc c : ℚ) →
      get_value (fuel + 1) (ratTrunc r) (ratTrunc c) sh = some (none, v, sh1) →
      refer (fuel + 2) e r c sh = some (v, e, sh1)) := by
  refine ⟨?_, ?_, ?_⟩
  · intro hni
    simp [refer, hni, fail, h]
  · intro hr hc hoor
    have hni : ¬(r ≠ (ratTrunc r : ℚ) ∨ c ≠ (ratTrunc c : ℚ)) := by
      push_neg
      exact ⟨hr, hc⟩
    simp [refer, hni, get_value, hoor, fail, h]
  · intro v sh1 hr hc hget
    have hni : ¬(r ≠ (ratTrunc r : ℚ) ∨ c ≠ (ratTrunc c : ℚ)) := by
      push_neg
      exact ⟨hr, hc⟩
    simp [refer, hni, hget]

/-- C2 witness: the reference `99 @ 0` (in range of nothing) at a fresh
evaluator. -/
theorem refer_validation_amended_witness :
    ((99 : Value) ≠ (ratTrunc 99 : ℚ) ∨ (0 : Value) ≠ (ratTrunc 0 : ℚ) →
      refer 1 e0 99 0 initSheet
        = some (0, { e0 with plaint := some Plaint.nonIntegerCoord, s := [] }, initSheet))
    ∧ ((99 : Value) = (ratTrunc 99 : ℚ) → (0 : Value) = (ratTrunc 0 : ℚ) →
      (ratTrunc 99 < 0 ∨ (nrows : Int) ≤ ratTrunc 99
          ∨ ratTrunc 0 < 0 ∨ (ncols : Int) ≤ ratTrunc 0) →
      refer 2 e0 99 0 initSheet
        = some (0, { e0 with plaint := some Plaint.upstream, s := [] }, initSheet))
    ∧ (∀ v sh1, (99 : Value) = (ratTrunc 99 : ℚ) → (0 : Value) = (ratTrunc 0 : ℚ) →
      get_value 1 (ratTrunc 99) (ratTrunc 0) initSheet = some (none, v, sh1) →
      refer 2 e0 99 0 initSheet = some (v, e0, sh1)) :=
  refer_validation_amended 0 e0 initSheet 99 0 rfl

/-- C3.  Error propagation across `@`: with the referred cell's
`get_value` result in hand — value `v` when clean — the referring
evaluation sees `v` unchanged when clean, latches the concrete
`no_formula` and `cycle` plaints as such, and masks every other plaint to
the generic upstream plaint, whose user-visible message is empty. -/
theorem refer_error_propagation (fuel : Nat) (e : Evaluator) (sh sh1 : Sheet)
    (r c : Value) (p : Option Plaint) (v : Value)
    (h : e.plaint = none) (hr : r = (ratTrunc r : ℚ)) (hc : c = (ratTrunc c : ℚ))
    (hget : get_value fuel (ratTrunc r) (ratTrunc c) sh = some (p, v, sh1)) :
    (p = none → refer (fuel + 1) e r c sh = some (v, e, sh1))
    ∧ (p = some Plaint.noFormula →
      refer (fuel + 1) e r c sh
        = some (v, { e with plaint := some Plaint.noFormula, s := [] }, sh1))
    ∧ (p = some Plaint.cycle →
      refer (fuel + 1) e r c sh
        = some (v, { e with plaint := some Plaint.cycle, s := [] }, sh1))
    ∧ (∀ q, p = some q → q ≠ Plaint.noFormula → q ≠ Plaint.cycle →
      refer (fuel + 1) e r c sh
        = some (v, { e with plaint := some Plaint.upstream, s := [] }, sh1))
    ∧ plaintMessage Plaint.upstream = "" := by
  have hni : ¬(r ≠ (ratTrunc r : ℚ) ∨ c ≠ (ratTrunc c : ℚ)) := by
    push_neg
    exact ⟨hr, hc⟩
  refine ⟨?_, ?_, ?_, ?_, by decide⟩
  · intro hp
    subst hp
    simp [refer, hni, hget]
  · intro hp
    subst hp
    simp [refer, hni, hget, fail, h]
  · intro hp
    subst hp
    simp [refer, hni, hget, fail, h]
  · intro q hp hnf hcy
    subst hp
    simp [refer, hni, hget, fail, h, hnf, hcy]

/-- C3 witness: referring to the formula-less cell (5,0) of the fresh
grid latches the concrete `no_formula` plaint. -/
theorem refer_error_propagation_witness :
    ((some Plaint.noFormula : Option Plaint) = none →
      refer 3 e0 5 0 initSheet = some (0, e0, noFormulaResultSheet))
    ∧ ((some Plaint.noFormula : Option Plaint) = some Plaint.noFormula →
      refer 3 e0 5 0 initSheet
        = some (0, { e0 with plaint := some Plaint.noFormula, s := [] }, noFormulaResultSheet))
    ∧ ((some Plaint.noFormula : Option Plaint) = some Plaint.cycle →
      refer 3 e0 5 0 initSheet
        = some (0, { e0 with plaint := some Plaint.cycle, s := [] }, noFormulaResultSheet))
    ∧ (∀ q, (some Plaint.noFormula : Option Plaint) = some q →
      q ≠ Plaint.noFormula → q ≠ Plaint.cycle →
      refer 3 e0 5 0 initSheet
        = some (0, { e0 with plaint := some Plaint.upstream, s := [] }, noFormulaResultSheet))
    ∧ plaintMessage Plaint.upstream = "" :=
  refer_error_propagation 2 e0 initSheet noFormulaResultSheet 5 0
    (some Plaint.noFormula) 0 rfl (by with_unfolding_all decide)
    (by with_unfolding_all decide) (by with_unfolding_all rfl)

/-!  ### Persistence: the write/read round trip (claim C9) -/

theorem map_flatten_comm {α β γ : Type} (ps : List α) (g : α → List β) (f : β → γ) :
    ((ps.map g).flatten).map f = (ps.map fun p => (g p).map f).flatten := by
  induction ps with
  | nil => rfl
  | cons p ps ih => simp [ih]

theorem flatten_flatten_map {α β : Type} (ps : List α) (g : α → List (List β)) :
    ((ps.map g).flatten).flatten = (ps.map fun p => (g p).flatten).flatten := by
  induction ps with
  | nil => rfl
  | cons p ps ih => simp [ih]

theorem map_pair_flatten {β : Type} (g : Nat × Nat → β) (rs cs : List Nat) :
    ((rs.map fun r => cs.map fun c => (r, c)).flatten.map g)
      = (rs.map fun r => cs.map fun c => g (r, c)).flatten := by
  induction rs with
  | nil => rfl
  | cons r rs ih => simp [ih, List.map_map, Function.comp]

theorem splitLinesAux_cons_ne (ch : Char) (t acc : List Char) (h : ¬ch = '\n') :
    splitLinesAux (ch :: t) acc = splitLinesAux t (ch :: acc) := by
  rw [splitLinesAux.eq_def]
  split
  all_goals simp_all

theorem splitLinesAux_line : ∀ (line : List Char), '\n' ∉ line →
    ∀ (acc rest : List Char),
      splitLinesAux (line ++ '\n' :: rest) acc
        = (acc.reverse ++ line) :: splitLinesAux rest [] := by
  intro line
  induction line with
  | nil => intro _ acc rest; simp [splitLinesAux]
  | cons ch t ih =>
    intro hnl acc rest
    have hch : ¬ch = '\n' := fun he => hnl (by rw [he]; exact List.mem_cons_self _ _)
    have ht : '\n' ∉ t := fun hm => hnl (List.mem_cons_of_mem _ hm)
    rw [List.cons_append, splitLinesAux_cons_ne ch _ _ hch, ih ht (ch :: acc) rest]
    simp

theorem splitLines_flatten : ∀ (ls : List (List Char)), (∀ l ∈ ls, '\n' ∉ l) →
    splitLines ((ls.map fun l => l ++ ['\n']).flatten) = ls := by
  intro ls
  induction ls with
  | nil => intro _; rfl
  | cons l ls ih =>
    intro h
    show splitLines ((l ++ ['\n']) ++ (ls.map fun l => l ++ ['\n']).flatten) = l :: ls
    unfold splitLines
    rw [List.append_assoc, List.singleton_append,
      splitLinesAux_line l (h l (List.mem_cons_self _ _)) []]
    have htail := ih fun x hx => h x (List.mem_cons_of_mem _ hx)
    unfold splitLines at htail
    rw [htail]
    simp

/-- `sscanf` on a line `write_file` emits for cell (r, c): both numbers
come back, and the text comes back with its leading blanks skipped. -/
theorem parseLine_wf (r c : Nat) (text : List Char) (h : ¬skip_blanks text = []) :
    parseLine (natRepr r ++ ' ' :: (natRepr c ++ ' ' :: text))
      = some (r, c, skip_blanks text) := by
  have hspan1 := span_append_all Char.isDigit (natRepr r) (' ' :: (natRepr c ++ ' ' :: text))
    (natRepr_digits r) (by simp only; decide)
  have hspan2 := span_append_all Char.isDigit (natRepr c) (' ' :: text)
    (natRepr_digits c) (by simp only; decide)
  simp only [parseLine]
  rw [skip_blanks_natRepr, hspan1.1, hspan1.2, if_neg (natRepr_ne_nil r),
    skip_blanks_cons_blank _ _ (by decide), skip_blanks_natRepr,
    hspan2.1, hspan2.2, if_neg (natRepr_ne_nil c),
    skip_blanks_cons_blank _ _ (by decide), if_neg h,
    digitsVal_natRepr, digitsVal_natRepr]

/-- One loop iteration of `read_file` on such a line: exactly
`set_text_only` with the blank-stripped text. -/
theorem read_line_wf (s : Sheet) (r c : Nat) (text : List Char)
    (hr : r < nrows) (hc : c < ncols) (h : ¬skip_blanks text = []) :
    read_line s (natRepr r ++ ' ' :: (natRepr c ++ ' ' :: text))
      = set_text_only s r c (skip_blanks text) := by
  unfold read_line
  rw [parseLine_wf r c text h]
  show (if nrows ≤ r ∨ ncols ≤ c then s else set_text_only s r c (skip_blanks text)) = _
  rw [if_neg (by omega)]

/-- Folding `read_file`'s loop over the lines written for the cells
listed in `ps` sets exactly the non-blank cells among them, to their
blank-stripped text, and touches nothing else. -/
theorem foldl_read_pairs (sh : Sheet) : ∀ (ps : List (Nat × Nat)),
    (∀ p ∈ ps, p.1 < nrows ∧ p.2 < ncols) →
    ∀ (s0 : Sheet) (r c : Nat),
      ((((ps.map fun p =>
            if skip_blanks ((sh p.1 p.2).text) ≠ [] then
              [natRepr p.1 ++ ' ' :: (natRepr p.2 ++ ' ' :: (sh p.1 p.2).text)]
            else []).flatten).foldl read_line s0) r c).text
        = if (r, c) ∈ ps ∧ skip_blanks ((sh r c).text) ≠ []
          then skip_blanks ((sh r c).text) else (s0 r c).text := by
  intro ps
  induction ps with
  | nil => intro _ s0 r c; simp
  | cons p ps ih =>
    intro hin s0 r c
    obtain ⟨hp1, hp2⟩ := hin p (List.mem_cons_self _ _)
    have hin' : ∀ q ∈ ps, q.1 < nrows ∧ q.2 < ncols :=
      fun q hq => hin q (List.mem_cons_of_mem _ hq)
    simp only [List.map_cons, List.flatten_cons]
    rw [List.foldl_append]
    by_cases hb : skip_blanks ((sh p.1 p.2).text) = []
    · rw [if_neg (not_not_intro hb)]
      simp only [List.foldl_nil]
      rw [ih hin' s0 r c]
      by_cases hrc : ((r, c) : Nat × Nat) = p
      · have hbrc : skip_blanks ((sh r c).text) = [] := by
          subst hrc
          simpa using hb
        simp [hbrc]
      · simp [List.mem_cons, hrc]
    · rw [if_pos hb]
      simp only [List.foldl_cons, List.foldl_nil]
      rw [read_line_wf s0 p.1 p.2 _ hp1 hp2 hb,
        ih hin' (set_text_only s0 p.1 p.2 (skip_blanks ((sh p.1 p.2).text))) r c]
      by_cases hrc : ((r, c) : Nat × Nat) = p
      · subst hrc
        simp only at hb
        by_cases hmem : ((r, c) : Nat × Nat) ∈ ps
        · simp [hmem, hb]
        · simp [hmem, hb, set_text_only, updateSheet]
      · have hne : ¬(r = p.1 ∧ c = p.2) := by
          intro ⟨h1, h2⟩
          exact hrc (by rw [Prod.ext_iff]; exact ⟨h1, h2⟩)
        simp [List.mem_cons, hrc, set_text_only, updateSheet, hne]

/-- One row of `write_file`'s output, recast as per-cell line lists. -/
theorem write_row_eq (sh : Sheet) (r : Nat) : ∀ (cs : List Nat),
    (cs.map fun c =>
        if skip_blanks ((sh r c).text) ≠ [] then
          natRepr r ++ ' ' :: (natRepr c ++ ' ' :: ((sh r c).text ++ ['\n']))
        else []).flatten
      = (((cs.map fun c => ((r, c) : Nat × Nat)).map
            fun p : Nat × Nat =>
              if skip_blanks ((sh p.1 p.2).text) ≠ [] then
                [natRepr p.1 ++ ' ' :: (natRepr p.2 ++ ' ' :: (sh p.1 p.2).text)]
              else []).flatten.map fun l => l ++ ['\n']).flatten := by
  intro cs
  induction cs with
  | nil => rfl
  | cons c cs ih =>
    simp only [List.map_cons, List.flatten_cons, List.map_append, List.flatten_append]
    rw [← ih]
    congr 1
    by_cases hb : skip_blanks ((sh r c).text) = [] <;> simp [hb]

/-- `write_file`'s cell loop, recast over the row-major cell list. -/
theorem write_rows_eq (sh : Sheet) : ∀ (rs cs : List Nat),
    ((rs.map fun r => (cs.map fun c =>
        if skip_blanks ((sh r c).text) ≠ [] then
          natRepr r ++ ' ' :: (natRepr c ++ ' ' :: ((sh r c).text ++ ['\n']))
        else []).flatten).flatten)
      = ((((rs.map fun r => cs.map fun c => ((r, c) : Nat × Nat)).flatten.map
            fun p : Nat × Nat =>
              if skip_blanks ((sh p.1 p.2).text) ≠ [] then
                [natRepr p.1 ++ ' ' :: (natRepr p.2 ++ ' ' :: (sh p.1 p.2).text)]
              else []).flatten).map fun l => l ++ ['\n']).flatten := by
  intro rs cs
  induction rs with
  | nil => rfl
  | cons r rs ih =>
    simp only [List.map_cons, List.flatten_cons, List.map_append, List.flatten_append]
    rw [← ih]
    congr 1
    exact write_row_eq sh r cs

theorem mem_rowPairs (r c : Nat) :
    ((r, c) ∈ rowMajorPairs) ↔ (r < nrows ∧ c < ncols) := by
  unfold rowMajorPairs
  simp [List.mem_flatten, List.mem_map, List.mem_range, Prod.mk.injEq]

theorem nl_not_in_natRepr (n : Nat) : '\n' ∉ natRepr n := fun h =>
  absurd (natRepr_digits n '\n' h) (by decide)

theorem text_updated_text (sh : Sheet) (r c : Nat) :
    ((text_updated sh) r c).text = (sh r c).text := by
  show (if r < nrows ∧ c < ncols then
      { sh r c with plaint := some Plaint.stale } else sh r c).text = (sh r c).text
  split <;> rfl

/-- C9 counterexample: the round trip is not the identity on cell text.
Writing the grid whose cell (0,0) holds `" x"` and re-loading the output
yields `"x"`: `sscanf`'s `" %[^\n]"` strips the leading blank. -/
theorem persistence_roundtrip_cex :
    ((read_file initSheet (write_cells leadingBlankSheet)) 0 0).text
      ≠ (leadingBlankSheet 0 0).text := by
  with_unfolding_all decide

/-- C9 (amended).  Persistence round trip: writing the grid (one line
`"<row> <col> <text>\n"` per cell with non-blank text, row-major) and
re-loading into a fresh grid yields, in every in-range cell, the original
text with its leading blanks stripped — so texts without leading blanks
round-trip verbatim, while a leading-blank or all-blank text does not.
The hypotheses keep each written line inside what one `fgets` call over
the loader's 1024-byte buffer returns: no `'\n'` inside a text, and text
length at most 1016. -/
theorem persistence_roundtrip_amended (sh : Sheet) (r c : Nat)
    (hr : r < nrows) (hc : c < ncols)
    (hnl : ∀ r' < nrows, ∀ c' < ncols, '\n' ∉ (sh r' c').text)
    (hlen : ∀ r' < nrows, ∀ c' < ncols, ((sh r' c').text).length ≤ 1016) :
    ((read_file initSheet (write_cells sh)) r c).text
      = skip_blanks ((sh r c).text) := by
  have hw : write_cells sh = ((cellLines sh).map fun l => l ++ ['\n']).flatten :=
    write_rows_eq sh (List.range nrows) (List.range ncols)
  have hwf : ∀ l ∈ cellLines sh, '\n' ∉ l := by
    intro l hl
    unfold cellLines at hl
    rw [List.mem_flatten] at hl
    obtain ⟨e, he, hle⟩ := hl
    rw [List.mem_map] at he
    obtain ⟨p, hp, rfl⟩ := he
    by_cases hb : skip_blanks ((sh p.1 p.2).text) = []
    · rw [if_neg (not_not_intro hb)] at hle
      cases hle
    · rw [if_pos hb] at hle
      simp only [List.mem_singleton] at hle
      subst hle
      have hpin : p.1 < nrows ∧ p.2 < ncols := by
        refine (mem_rowPairs p.1 p.2).mp ?_
        rwa [Prod.mk.eta]
      intro hmem
      simp only [List.mem_append, List.mem_cons] at hmem
      rcases hmem with h1 | h2 | h3 | h4 | h5
      · exact nl_not_in_natRepr p.1 h1
      · exact absurd h2 (by decide)
      · exact nl_not_in_natRepr p.2 h3
      · exact absurd h4 (by decide)
      · exact hnl p.1 hpin.1 p.2 hpin.2 h5
  have hinr : ∀ p ∈ rowMajorPairs, p.1 < nrows ∧ p.2 < ncols := by
    intro p hp
    refine (mem_rowPairs p.1 p.2).mp ?_
    rwa [Prod.mk.eta]
  unfold read_file
  rw [hw, splitLines_flatten _ hwf, text_updated_text]
  unfold cellLines
  rw [foldl_read_pairs sh rowMajorPairs hinr initSheet r c]
  by_cases hb : skip_blanks ((sh r c).text) = []
  · rw [if_neg (by simp [hb])]
    rw [hb]
    rfl
  · rw [if_pos ⟨(mem_rowPairs r c).mpr ⟨hr, hc⟩, hb⟩]

/-- C9 witness: the amended round trip at the single-cell grid whose
(0,0) text is `" x"`: the hypotheses hold concretely, and the reloaded
text is the blank-stripped `"x"`. -/
theorem persistence_roundtrip_amended_witness :
    (0 < nrows) ∧ (0 < ncols)
    ∧ (∀ r' < nrows, ∀ c' < ncols, '\n' ∉ (leadingBlankSheet r' c').text)
    ∧ (∀ r' < nrows, ∀ c' < ncols, ((leadingBlankSheet r' c').text).length ≤ 1016)
    ∧ ((read_file initSheet (write_cells leadingBlankSheet)) 0 0).text
        = skip_blanks ((leadingBlankSheet 0 0).text) :=
  ⟨by decide, by decide, by with_unfolding_all decide, by with_unfolding_all decide,
    persistence_roundtrip_amended leadingBlankSheet 0 0 (by decide) (by decide)
      (by with_unfolding_all decide) (by with_unfolding_all decide)⟩

end Vicissicalc
